import Mathlib

/-!
Verification of the PyEPO SPO+ loss engine (`pkg/pyepo/func/spoplus.py`) and
the TSP optimization models (`pyepo/model/grb/tsp.py`), via a shallow
embedding into Lean.  Real-valued numpy/torch arithmetic is idealized over
the rationals; the backend solver is modeled as a deterministic function
from the objective cost vector to an optimal solution and objective value.
-/

/-- Optimization sense constants of the `EPO` enum. -/
inductive Sense
  | MINIMIZE
  | MAXIMIZE
deriving DecidableEq

/-- A PyEPO optimization model as the loss engine sees it: `setObj` followed by
`solve` is a deterministic map from the cost vector to a pair of an optimal
solution and objective value, plus the model's optimization sense. -/
structure OptModel where
  solve : List ℚ → List ℚ × ℚ
  modelSense : Sense

/-- `np.dot` of two vectors. -/
def dot (a b : List ℚ) : ℚ := (List.zipWith (fun x y => x * y) a b).sum

/-- The surrogate cost `2 * pred_cost - true_cost`, elementwise. -/
def surrogateCost (cp c : List ℚ) : List ℚ := List.zipWith (fun a b => 2 * a - b) cp c

/-- The ground-truth consistency check of `SPOPlus.forward`: for every example
`i`, `|z[i] - dot(c[i], w[i])| / (|z[i]| + 1e-3) < 1e-3`. -/
def consistencyOK (c w : List (List ℚ)) (z : List ℚ) : Bool :=
  (List.range z.length).all fun i =>
    decide (|z.getD i 0 - dot (c.getD i []) (w.getD i [])| / (|z.getD i 0| + 1 / 1000)
      < 1 / 1000)

/-- Modelled from the spec: the worker-side rebuild of an optimization model
from its class and constructor arguments (`model_type(**args)`, with `getArgs`
from `pyepo.utlis`, absent from the sources).  The reconstruction recipe is a
function from the constructor argument to a model, mirroring
`solveWithObj4Par` in `spoplus.py`: rebuild the model, set the objective,
solve, and return the solution and objective value. -/
def solveWithObj4Par (cost : List ℚ) (args : ℕ) (model_type : ℕ → OptModel) :
    List ℚ × ℚ :=
  let optmodel := model_type args
  optmodel.solve cost

/-- The single-core branch of `SPOPlus.forward`: one sequential loop that, per
example, solves the surrogate objective on the bound model, appends the loss
`-objq + 2*dot(cp[i], w[i]) - z[i]` and appends the surrogate solution. -/
def singleCorePass (optmodel : OptModel) (cp c w : List (List ℚ)) (z : List ℚ) :
    List ℚ × List (List ℚ) :=
  (List.range z.length).foldl
    (fun acc i =>
      let r := optmodel.solve (surrogateCost (cp.getD i []) (c.getD i []))
      (acc.1 ++ [-r.2 + 2 * dot (cp.getD i []) (w.getD i []) - z.getD i 0],
       acc.2 ++ [r.1]))
    ([], [])

/-- The multi-core branch of `SPOPlus.forward`: map `solveWithObj4Par` over the
batch of surrogate costs (the parallel pool returns results in input order),
then compute the losses from the collected objective values. -/
def multiCorePass (args : ℕ) (model_type : ℕ → OptModel) (cp c w : List (List ℚ))
    (z : List ℚ) : List ℚ × List (List ℚ) :=
  let res := ((List.range z.length).map fun i =>
      surrogateCost (cp.getD i []) (c.getD i [])).map
    (fun cost => solveWithObj4Par cost args model_type)
  let sol := res.map Prod.fst
  let obj := res.map Prod.snd
  let loss := (List.range z.length).map fun i =>
    -(obj.getD i 0) + 2 * dot (cp.getD i []) (w.getD i []) - z.getD i 0
  (loss, sol)

/-- `SPOPlus.forward`: validate the ground truth of the whole batch; on
violation abort with the inconsistent-solution error.  Otherwise solve the
surrogate problem per example (locally when `processes = 1`, otherwise via the
parallel pool), negate the loss vector for maximization-sense models, and
return the loss vector together with the surrogate solutions saved for the
backward pass. -/
def SPOPlus.forward (optmodel : OptModel) (processes : ℕ) (args : ℕ)
    (model_type : ℕ → OptModel) (cp c w : List (List ℚ)) (z : List ℚ) :
    Except String (List ℚ × List (List ℚ)) :=
  if ¬ consistencyOK c w z then
    .error "InconsistentSolutionError"
  else
    let p := if processes = 1 then singleCorePass optmodel cp c w z
             else multiCorePass args model_type cp c w z
    let loss := match optmodel.modelSense with
      | .MINIMIZE => p.1
      | .MAXIMIZE => p.1.map Neg.neg
    .ok (loss, p.2)

/-- Columnwise sum of a batch of rows, mirroring tensor addition over the
batch dimension. -/
def vsum : List (List ℚ) → List ℚ
  | [] => []
  | [r] => r
  | r :: rs => List.zipWith (fun x y => x + y) r (vsum rs)

/-- Elementwise difference of two equally-shaped batches (`w - wq`). -/
def matSub (a b : List (List ℚ)) : List (List ℚ) :=
  List.zipWith (fun r s => List.zipWith (fun x y => x - y) r s) a b

/-- `.mean(0)`: columnwise mean over the batch dimension. -/
def meanRows (rows : List (List ℚ)) : List ℚ :=
  (vsum rows).map (fun x => x / (rows.length : ℚ))

/-- `SPOPlus.backward`: the SPO+ subgradient `2 * (w - wq).mean(0)` for
minimization-sense models (`2 * (wq - w).mean(0)` for maximization), scaled by
the upstream gradient; the remaining three inputs (true cost, true solution,
true objective) receive no gradient. -/
def SPOPlus.backward (optmodel : OptModel) (w wq : List (List ℚ))
    (gradOutput : ℚ) :
    Option (List ℚ) × Option (List ℚ) × Option (List ℚ) × Option (List ℚ) :=
  let grad := match optmodel.modelSense with
    | .MINIMIZE => (meanRows (matSub w wq)).map (fun x => 2 * x)
    | .MAXIMIZE => (meanRows (matSub wq w)).map (fun x => 2 * x)
  (some (grad.map (fun x => gradOutput * x)), none, none, none)

/-!
## TSP models (`pyepo/model/grb/tsp.py`)
-/

/-- The undirected edge list of `tspABModel`:
`[(i, j) for i in range(num_nodes) for j in range(num_nodes) if i < j]`. -/
def tspEdges (num_nodes : ℕ) : List (ℕ × ℕ) :=
  (List.range num_nodes).flatMap fun i =>
    ((List.range num_nodes).filter fun j => decide (i < j)).map fun j => (i, j)

/-- The concrete TSP formulation classes. -/
inductive TSPVariant
  | GG
  | GGRel
  | DFJ
  | MTZ
  | MTZRel
deriving DecidableEq

/-- Observable state of a TSP model instance: its class, node count, the
constraints added after construction via `addConstr` (each a coefficient
vector over the cost basis with a right-hand side, read `dot(coefs, x) ≤
rhs`), and the objective installed by `setObj` (`none` when never set). -/
structure TSPModel where
  variant : TSPVariant
  num_nodes : ℕ
  extraConstrs : List (List ℚ × ℚ)
  objective : Option (List ℚ)
deriving DecidableEq

/-- `num_cost`: the length of the edge list. -/
def TSPModel.num_cost (m : TSPModel) : ℕ := (tspEdges m.num_nodes).length

/-- `tspABModel.copy`: `type(self)(self.num_nodes)`, a fresh instance of the
same class and node count, carrying no added constraints and no objective. -/
def tspABModel.copy (m : TSPModel) : TSPModel :=
  { variant := m.variant, num_nodes := m.num_nodes, extraConstrs := [], objective := none }

/-- `setObj`: reject a cost vector of the wrong dimension, else replace the
model's linear objective in place. -/
def tspABModel.setObj (m : TSPModel) (c : List ℚ) : Except String TSPModel :=
  if c.length ≠ m.num_cost then .error "Size of cost vector cannot match vars."
  else .ok { m with objective := some c }

/-- `addConstr` (identical in the GG, DFJ and MTZ classes): reject coefficients
of the wrong dimension, else copy the model and add the single new inequality
to the copy.  The pair returned is `(self after the call, new model)`: the
method never writes to `self`. -/
def tspABModel.addConstr (m : TSPModel) (coefs : List ℚ) (rhs : ℚ) :
    Except String (TSPModel × TSPModel) :=
  if coefs.length ≠ m.num_cost then .error "Size of coef vector cannot cost."
  else .ok (m, { tspABModel.copy m with extraConstrs := [(coefs, rhs)] })

/-- `tspGGModel.relax`: a fresh `tspGGModelRel` of the same node count. -/
def tspGGModel.relax (m : TSPModel) : TSPModel :=
  { variant := .GGRel, num_nodes := m.num_nodes, extraConstrs := [], objective := none }

/-- `tspMTZModel.relax`: a fresh `tspMTZModelRel` of the same node count. -/
def tspMTZModel.relax (m : TSPModel) : TSPModel :=
  { variant := .MTZRel, num_nodes := m.num_nodes, extraConstrs := [], objective := none }

/-- `tspGGModelRel.relax`: forbidden, always raises. -/
def tspGGModelRel.relax (_ : TSPModel) : Except String TSPModel :=
  .error "Model has already been relaxed."

/-- `tspGGModelRel.getTour`: forbidden, always raises. -/
def tspGGModelRel.getTour (_ : TSPModel) (_ : List ℚ) : Except String (List ℕ) :=
  .error "Relaxation Model has no integer solution."

/-- `tspMTZModelRel.relax`: forbidden, always raises. -/
def tspMTZModelRel.relax (_ : TSPModel) : Except String TSPModel :=
  .error "Model has already been relaxed."

/-- `tspMTZModelRel.getTour`: forbidden, always raises. -/
def tspMTZModelRel.getTour (_ : TSPModel) (_ : List ℚ) : Except String (List ℕ) :=
  .error "Relaxation Model has no integer solution."

/-- The index-aligned list of edges whose solution value exceeds the `1e-2`
activation threshold. -/
def activePairs (edges : List (ℕ × ℕ)) (sol : List ℚ) : List (ℕ × ℕ) :=
  ((edges.zip sol).filter fun p => decide ((1 : ℚ) / 100 < p.2)).map Prod.fst

/-- The `defaultdict` adjacency built by `tspABModel.getTour`: scanning the
active edges in index order, each edge `(j, k)` appends `k` to the list of `j`
and `j` to the list of `k`. -/
def adjOf (act : List (ℕ × ℕ)) (v : ℕ) : List ℕ :=
  act.flatMap fun p => (if v = p.1 then [p.2] else []) ++ (if v = p.2 then [p.1] else [])

/-- The distinct keys of that `defaultdict`: the nodes incident to at least one
active edge (`len(edges)` in the source is the length of this list). -/
def dictKeys (act : List (ℕ × ℕ)) : List ℕ :=
  (act.flatMap fun p => [p.1, p.2]).dedup

/-- The `while len(visited) < len(edges)` loop of `getTour`, carrying the tour
in reverse (head = last appended node).  Each pass appends the first
neighbour of the current endpoint not yet visited.  `none` models
non-termination of the Python loop (no unvisited neighbour while nodes
remain); the fuel never runs out for the fuel passed by `getTour`. -/
def tourLoop (adj : ℕ → List ℕ) (numKeys : ℕ) : ℕ → List ℕ → Option (List ℕ)
  | 0, _ => none
  | fuel + 1, tourRev =>
    if tourRev.length < numKeys then
      match (adj tourRev.headI).find? (fun j => !(tourRev.contains j)) with
      | some j => tourLoop adj numKeys fuel (j :: tourRev)
      | none => none
    else
      some tourRev

/-- `tspABModel.getTour` on a model with `num_nodes` nodes: build the active
adjacency, walk greedily from node 0, and close the tour with a final 0 when
the last node is adjacent to node 0. -/
def tspABModel.getTour (num_nodes : ℕ) (sol : List ℚ) : Option (List ℕ) :=
  let act := activePairs (tspEdges num_nodes) sol
  let adj := adjOf act
  let nk := (dictKeys act).length
  match tourLoop adj nk (nk + 1) [0] with
  | none => none
  | some tourRev =>
    let tour := tourRev.reverse
    if (adj tourRev.headI).contains 0 then some (tour ++ [0]) else some tour

/-!
### DFJ lazy subtour elimination
-/

/-- The `selected` tuplelist of `tspDFJModel._subtourelim`: the keys of the
variable dict are the undirected edges followed by their mirrored copies
(`x[j, i] = x[i, j]` shares the variable, so a pair is selected exactly when
its undirected edge value exceeds the threshold). -/
def selectedOf (num_nodes : ℕ) (sol : List ℚ) : List (ℕ × ℕ) :=
  let act := activePairs (tspEdges num_nodes) sol
  act ++ act.map (fun p => (p.2, p.1))

/-- `selected.select(c, "*")` projected to the second component: the
neighbours of `c` in the selected-edge graph, in tuplelist order. -/
def selAdj (selected : List (ℕ × ℕ)) (c : ℕ) : List ℕ :=
  selected.filterMap fun p => if p.1 = c then some p.2 else none

/-- The inner `while neighbors` loop of the `subtour` helper: take the first
neighbour as `current`, record it in `thiscycle`, remove it from `unvisited`,
and continue with the unvisited neighbours of `current`.  Returns the
completed cycle and the remaining unvisited list.  The fuel passed by
`subtourLoop` always suffices, as every pass removes one unvisited node. -/
def innerWalk (sel : List (ℕ × ℕ)) : ℕ → List ℕ → List ℕ → List ℕ → List ℕ × List ℕ
  | 0, _, unv, tc => (tc, unv)
  | fuel + 1, nbrs, unv, tc =>
    match nbrs with
    | [] => (tc, unv)
    | current :: _ =>
      let unv' := unv.erase current
      innerWalk sel fuel ((selAdj sel current).filter (fun j => unv'.contains j))
        unv' (tc ++ [current])

/-- The outer `while unvisited` loop of the `subtour` helper: peel off one
greedy connected walk at a time, keeping the shortest cycle found so far. -/
def subtourLoop (sel : List (ℕ × ℕ)) : ℕ → List ℕ → List ℕ → List ℕ
  | 0, _, cyc => cyc
  | fuel + 1, unv, cyc =>
    match unv with
    | [] => cyc
    | _ :: _ =>
      let r := innerWalk sel (unv.length + 1) unv unv []
      subtourLoop sel fuel r.2 (if cyc.length > r.1.length then r.1 else cyc)

/-- The `subtour` helper of `tspDFJModel._subtourelim`: the shortest greedy
cycle among the selected edges on `n` nodes (initialized with the dummy cycle
`range(n + 1)`). -/
def subtour (sel : List (ℕ × ℕ)) (n : ℕ) : List ℕ :=
  subtourLoop sel (n + 1) (List.range n) (List.range (n + 1))

/-- `itertools.combinations(tour, 2)`: all position-ordered pairs of the
tour's nodes. -/
def combs2 : List ℕ → List (ℕ × ℕ)
  | [] => []
  | a :: t => (t.map fun b => (a, b)) ++ combs2 t

/-- The `MIPSOL` branch of `tspDFJModel._subtourelim` on a candidate integer
solution: compute the shortest cycle, and lazily add the cut
`sum x[i, j] over pairs of the cycle ≤ len(cycle) - 1` exactly when the cycle
misses at least one node.  `none` means no constraint is added. -/
def tspDFJModel.subtourelim (num_nodes : ℕ) (sol : List ℚ) :
    Option (List (ℕ × ℕ) × ℕ) :=
  let sel := selectedOf num_nodes sol
  let tour := subtour sel num_nodes
  if tour.length < num_nodes then some (combs2 tour, tour.length - 1) else none

/-!
### The MTZ formulation (`tspMTZModel._getModel`)
-/

/-- Gurobi decision-variable kinds used by the TSP models. -/
inductive GVarKind
  | binary
  | continuous
deriving DecidableEq

/-- A Gurobi decision variable: name, kind, and index tuple. -/
structure GVar where
  name : String
  kind : GVarKind
  index : List ℕ
deriving DecidableEq

/-- The directed edge list `self.edges + [(j, i) for (i, j) in self.edges]`. -/
def directedEdges (n : ℕ) : List (ℕ × ℕ) :=
  tspEdges n ++ (tspEdges n).map (fun p => (p.2, p.1))

/-- The decision variables created by `tspMTZModel._getModel`, in creation
order: a first block of binary `x` over the undirected edges and continuous
`u` over the nodes (immediately shadowed by the rebinding below, but present
in the Gurobi model), then the binary `x` over the directed edges and the
continuous `u` over the nodes that the constraints and objective refer to. -/
def mtzModelVars (n : ℕ) : List GVar :=
  ((tspEdges n).map fun p => { name := "x", kind := .binary, index := [p.1, p.2] }) ++
  ((List.range n).map fun v => { name := "u", kind := .continuous, index := [v] }) ++
  ((directedEdges n).map fun p => { name := "x", kind := .binary, index := [p.1, p.2] }) ++
  ((List.range n).map fun v => { name := "u", kind := .continuous, index := [v] })

/-- Modelled from the spec: the decision variables the spec and the claim
describe for the MTZ integer model — exactly one binary edge-selection
variable per directed edge plus one continuous potential variable per node. -/
def mtzSpecVars (n : ℕ) : List GVar :=
  ((directedEdges n).map fun p => { name := "x", kind := .binary, index := [p.1, p.2] }) ++
  ((List.range n).map fun v => { name := "u", kind := .continuous, index := [v] })

/-- The three constraint families of the MTZ formulation. -/
inductive MTZConstr
  | inDeg (j : ℕ)
  | outDeg (i : ℕ)
  | prec (i j : ℕ)
deriving DecidableEq

/-- Semantics of an MTZ constraint over an assignment of the directed edge
variables `x` and the potentials `u`: in-degree one, out-degree one, or the
precedence inequality `u[j] - u[i] ≥ n * (x[i, j] - 1) + 1`. -/
def MTZConstr.holds (n : ℕ) (x : ℕ → ℕ → ℚ) (u : ℕ → ℚ) : MTZConstr → Prop
  | .inDeg j => (((directedEdges n).filter fun p => decide (p.2 = j)).map
      fun p => x p.1 p.2).sum = 1
  | .outDeg i => (((directedEdges n).filter fun p => decide (p.1 = i)).map
      fun p => x p.1 p.2).sum = 1
  | .prec i j => u j - u i ≥ (n : ℚ) * (x i j - 1) + 1

/-- The constraints added by `tspMTZModel._getModel`, in order: in-degree-1
per node, out-degree-1 per node, and a precedence inequality per directed
edge whose endpoints are both nonzero. -/
def mtzModelConstrs (n : ℕ) : List MTZConstr :=
  ((List.range n).map .inDeg) ++ ((List.range n).map .outDeg) ++
  (((directedEdges n).filter fun p => decide (p.1 ≠ 0) && decide (p.2 ≠ 0)).map
    fun p => .prec p.1 p.2)

/-- Modelled from the spec: the constraint set the claim describes — the
in-degree-1 and out-degree-1 constraints per node plus the precedence
inequalities for every directed edge avoiding node 0. -/
def mtzSpecConstrs (n : ℕ) : List MTZConstr :=
  ((List.range n).map .inDeg) ++ ((List.range n).map .outDeg) ++
  (((directedEdges n).filter fun p => decide (p.1 ≠ 0) && decide (p.2 ≠ 0)).map
    fun p => .prec p.1 p.2)

/-!
## General lemmas
-/

theorem getD_map_range {α : Type} (f : ℕ → α) {n i : ℕ} (h : i < n) (d : α) :
    ((List.range n).map f).getD i d = f i := by
  rw [List.getD_eq_getElem _ d (by simpa using h)]
  simp

/-!
## Claims C8, C9, C10
-/

/-- C8: for every linear-relaxation model instance (GG or MTZ relaxation) and
every argument, `relax()` raises the already-relaxed error and `getTour()`
raises the not-integral error; neither call ever returns a value. -/
theorem c8_relaxation_forbidden_operations :
    ∀ (m : TSPModel) (sol : List ℚ),
      tspGGModelRel.relax m = .error "Model has already been relaxed." ∧
      tspGGModelRel.getTour m sol = .error "Relaxation Model has no integer solution." ∧
      tspMTZModelRel.relax m = .error "Model has already been relaxed." ∧
      tspMTZModelRel.getTour m sol = .error "Relaxation Model has no integer solution." :=
  fun _ _ => ⟨rfl, rfl, rfl, rfl⟩

/-- C9: the constraint set of `tspMTZModel._getModel` is exactly as claimed
(degree constraints plus precedence inequalities), but its decision-variable
list is not: at `num_nodes = 3` the Gurobi model holds 15 variables — an
extra, unused binary `x` per undirected edge and an extra unused continuous
`u` per node from the dead first `addVars` block — where the claim says
exactly the 6 directed binary `x` plus 3 continuous `u`, i.e. 9 variables. -/
theorem c9_mtz_variables_diverge :
    (∀ n, mtzModelConstrs n = mtzSpecConstrs n) ∧
    mtzModelVars 3 ≠ mtzSpecVars 3 ∧
    (mtzModelVars 3).length = 15 ∧
    (mtzSpecVars 3).length = 9 :=
  ⟨fun _ => rfl, by decide, by decide, by decide⟩

/-- The model `addConstr` hands back: a fresh base formulation of the same
variant and node count carrying exactly one added inequality and no
objective. -/
def freshWithCut (m : TSPModel) (coefs : List ℚ) (rhs : ℚ) : TSPModel :=
  { variant := m.variant, num_nodes := m.num_nodes,
    extraConstrs := [(coefs, rhs)], objective := none }

/-- C10: `addConstr` leaves the receiver untouched and returns a model rebuilt
from a fresh base formulation of the same variant and node count that carries
only the new inequality: any previously added constraints and any previously
set objective are absent, so a chained `addConstr` keeps only the last cut. -/
theorem c10_addConstr_rebuilds_fresh (m : TSPModel) (c1 c2 : List ℚ) (r1 r2 : ℚ)
    (h1 : c1.length = m.num_cost) (h2 : c2.length = m.num_cost) :
    tspABModel.addConstr m c1 r1 = .ok (m, freshWithCut m c1 r1) ∧
    ((tspABModel.addConstr m c1 r1).bind fun pr => tspABModel.addConstr pr.2 c2 r2) =
      .ok (freshWithCut m c1 r1, freshWithCut m c2 r2) ∧
    (freshWithCut m c2 r2).objective = none ∧
    ((c1, r1) ≠ (c2, r2) → (c1, r1) ∉ (freshWithCut m c2 r2).extraConstrs) := by
  have hcost : (freshWithCut m c1 r1).num_cost = m.num_cost := rfl
  refine ⟨?_, ?_, rfl, ?_⟩
  · simp [tspABModel.addConstr, h1, tspABModel.copy, freshWithCut]
  · simp [tspABModel.addConstr, h1, h2, hcost, tspABModel.copy, freshWithCut, Except.bind,
      TSPModel.num_cost]
  · intro hne hmem
    simp only [freshWithCut, List.mem_singleton] at hmem
    exact hne hmem

/-- Witness for C10 at a concrete 2-node GG model carrying a prior constraint
and objective. -/
theorem c10_addConstr_rebuilds_fresh_witness :
    ([(1 : ℚ)].length =
        TSPModel.num_cost ⟨.GG, 2, [([(5 : ℚ)], (1 : ℚ))], some [(7 : ℚ)]⟩) ∧
    ([(2 : ℚ)].length =
        TSPModel.num_cost ⟨.GG, 2, [([(5 : ℚ)], (1 : ℚ))], some [(7 : ℚ)]⟩) ∧
    (tspABModel.addConstr ⟨.GG, 2, [([(5 : ℚ)], (1 : ℚ))], some [(7 : ℚ)]⟩ [(1 : ℚ)] 3 =
      .ok (⟨.GG, 2, [([(5 : ℚ)], (1 : ℚ))], some [(7 : ℚ)]⟩,
           freshWithCut ⟨.GG, 2, [([(5 : ℚ)], (1 : ℚ))], some [(7 : ℚ)]⟩ [(1 : ℚ)] 3)) :=
  ⟨by decide, by decide,
    (c10_addConstr_rebuilds_fresh ⟨.GG, 2, [([5], 1)], some [7]⟩ [1] [2] 3 4
      (by decide) (by decide)).1⟩

/-!
## The forward pass as a per-example map
-/

/-- The loss contributed by example `i`:
`-objq + 2 * dot(pred_cost[i], true_sol[i]) - true_obj[i]`, where `objq` is
the objective value of the surrogate solve. -/
def exLoss (optmodel : OptModel) (cp c w : List (List ℚ)) (z : List ℚ) (i : ℕ) : ℚ :=
  -(optmodel.solve (surrogateCost (cp.getD i []) (c.getD i []))).2
    + 2 * dot (cp.getD i []) (w.getD i []) - z.getD i 0

/-- The surrogate solution of example `i`. -/
def exSol (optmodel : OptModel) (cp c : List (List ℚ)) (i : ℕ) : List ℚ :=
  (optmodel.solve (surrogateCost (cp.getD i []) (c.getD i []))).1

theorem singleCorePass_foldl (optmodel : OptModel) (cp c w : List (List ℚ)) (z : List ℚ)
    (l : List ℕ) : ∀ (a : List ℚ) (b : List (List ℚ)),
    l.foldl
      (fun acc i =>
        let r := optmodel.solve (surrogateCost (cp.getD i []) (c.getD i []))
        (acc.1 ++ [-r.2 + 2 * dot (cp.getD i []) (w.getD i []) - z.getD i 0],
         acc.2 ++ [r.1]))
      (a, b) =
    (a ++ l.map (exLoss optmodel cp c w z), b ++ l.map (exSol optmodel cp c)) := by
  induction l with
  | nil => intro a b; simp
  | cons x xs ih =>
    intro a b
    simp only [List.foldl_cons, List.map_cons]
    rw [ih]
    simp [exLoss, exSol]

theorem singleCorePass_eq (optmodel : OptModel) (cp c w : List (List ℚ)) (z : List ℚ) :
    singleCorePass optmodel cp c w z =
      ((List.range z.length).map (exLoss optmodel cp c w z),
       (List.range z.length).map (exSol optmodel cp c)) := by
  unfold singleCorePass
  rw [singleCorePass_foldl]
  simp

theorem multiCorePass_eq (optmodel : OptModel) (args : ℕ) (model_type : ℕ → OptModel)
    (cp c w : List (List ℚ)) (z : List ℚ)
    (hre : ∀ cost, solveWithObj4Par cost args model_type = optmodel.solve cost) :
    multiCorePass args model_type cp c w z =
      ((List.range z.length).map (exLoss optmodel cp c w z),
       (List.range z.length).map (exSol optmodel cp c)) := by
  unfold multiCorePass
  simp only [List.map_map, hre, Function.comp_def]
  refine Prod.ext ?_ ?_
  · refine List.map_congr_left fun i hi => ?_
    rw [getD_map_range _ (List.mem_range.mp hi)]
    simp [exLoss]
  · refine List.map_congr_left fun i _ => ?_
    simp [exSol]

theorem forward_eq (optmodel : OptModel) (processes args : ℕ) (model_type : ℕ → OptModel)
    (cp c w : List (List ℚ)) (z : List ℚ)
    (hok : consistencyOK c w z = true)
    (hre : ∀ cost, solveWithObj4Par cost args model_type = optmodel.solve cost) :
    SPOPlus.forward optmodel processes args model_type cp c w z =
      .ok ((match optmodel.modelSense with
            | .MINIMIZE => (List.range z.length).map (exLoss optmodel cp c w z)
            | .MAXIMIZE => ((List.range z.length).map (exLoss optmodel cp c w z)).map Neg.neg),
           (List.range z.length).map (exSol optmodel cp c)) := by
  unfold SPOPlus.forward
  by_cases hp : processes = 1
  · simp [hok, hp, singleCorePass_eq]
  · simp [hok, hp, multiCorePass_eq optmodel args model_type cp c w z hre]

theorem consistencyOK_iff (c w : List (List ℚ)) (z : List ℚ) :
    consistencyOK c w z = true ↔
      ∀ i < z.length,
        |z.getD i 0 - dot (c.getD i []) (w.getD i [])| / (|z.getD i 0| + 1 / 1000)
          < 1 / 1000 := by
  simp [consistencyOK, List.all_eq_true, List.mem_range]

/-- C4: the forward pass aborts the whole batch with the
inconsistent-solution error exactly when some example's true objective
violates the relative tolerance `|z[i] - dot(c[i], w[i])| / (|z[i]| + 1e-3)
< 1e-3`; the outcome is independent of the solver and of the worker count,
and when no example violates it the forward pass returns a loss normally. -/
theorem c4_inconsistency_aborts (optmodel : OptModel) (processes args : ℕ)
    (model_type : ℕ → OptModel) (cp c w : List (List ℚ)) (z : List ℚ) :
    (SPOPlus.forward optmodel processes args model_type cp c w z
        = .error "InconsistentSolutionError"
      ↔ ∃ i < z.length,
          (1 : ℚ) / 1000 ≤
            |z.getD i 0 - dot (c.getD i []) (w.getD i [])| / (|z.getD i 0| + 1 / 1000)) ∧
    ((¬ ∃ i < z.length,
          (1 : ℚ) / 1000 ≤
            |z.getD i 0 - dot (c.getD i []) (w.getD i [])| / (|z.getD i 0| + 1 / 1000)) →
      ∃ pr, SPOPlus.forward optmodel processes args model_type cp c w z = .ok pr) := by
  have hiff := consistencyOK_iff c w z
  by_cases h : consistencyOK c w z = true
  · have hall := hiff.mp h
    obtain ⟨pr, hpr⟩ : ∃ pr,
        SPOPlus.forward optmodel processes args model_type cp c w z = .ok pr :=
      ⟨_, by unfold SPOPlus.forward; rw [if_neg (by simp [h])]⟩
    refine ⟨?_, fun _ => ⟨pr, hpr⟩⟩
    rw [hpr]
    constructor
    · intro habs; exact absurd habs (by simp)
    · rintro ⟨i, hi, hge⟩
      exact absurd (hall i hi) (not_lt.mpr hge)
  · have hfail : consistencyOK c w z = false := by
      cases hb : consistencyOK c w z
      · rfl
      · exact absurd hb h
    refine ⟨?_, fun hcon => ?_⟩
    · constructor
      · intro _
        by_contra hcon
        exact h (hiff.mpr fun i hi => not_le.mp fun hge => hcon ⟨i, hi, hge⟩)
      · intro _
        unfold SPOPlus.forward
        rw [if_pos (by simp [hfail])]
    · exact absurd (hiff.mpr fun i hi => not_le.mp fun hge => hcon ⟨i, hi, hge⟩) h

/-- C1: for every batch example `i`, the forward pass solves the surrogate
objective `2 * pred_cost[i] - true_cost[i]` and the `i`-th returned loss is
`-objq + 2 * dot(pred_cost[i], true_sol[i]) - true_obj[i]` for
minimization-sense models, and its negation for maximization-sense models. -/
theorem c1_forward_loss_formula (optmodel : OptModel) (processes args : ℕ)
    (model_type : ℕ → OptModel) (cp c w : List (List ℚ)) (z : List ℚ)
    (hok : consistencyOK c w z = true)
    (hre : ∀ cost, solveWithObj4Par cost args model_type = optmodel.solve cost)
    (i : ℕ) (hi : i < z.length) :
    ∃ loss sols,
      SPOPlus.forward optmodel processes args model_type cp c w z = .ok (loss, sols) ∧
      sols.getD i [] = (optmodel.solve (surrogateCost (cp.getD i []) (c.getD i []))).1 ∧
      loss.getD i 0 =
        (match optmodel.modelSense with
         | .MINIMIZE =>
             -(optmodel.solve (surrogateCost (cp.getD i []) (c.getD i []))).2
               + 2 * dot (cp.getD i []) (w.getD i []) - z.getD i 0
         | .MAXIMIZE =>
             -(-(optmodel.solve (surrogateCost (cp.getD i []) (c.getD i []))).2
                 + 2 * dot (cp.getD i []) (w.getD i []) - z.getD i 0)) := by
  refine ⟨_, _, forward_eq optmodel processes args model_type cp c w z hok hre, ?_, ?_⟩
  · have h := getD_map_range (exSol optmodel cp c) hi ([] : List ℚ)
    simpa [exSol] using h
  · cases hs : optmodel.modelSense with
    | MINIMIZE =>
      simp only [hs]
      have h := getD_map_range (exLoss optmodel cp c w z) hi (0 : ℚ)
      simpa [exLoss] using h
    | MAXIMIZE =>
      simp only [hs, List.map_map]
      have h := getD_map_range (Neg.neg ∘ exLoss optmodel cp c w z) hi (0 : ℚ)
      simpa [exLoss] using h

theorem consistencyOK_single (c0 w0 : List ℚ) (z0 : ℚ)
    (h : |z0 - dot c0 w0| / (|z0| + 1 / 1000) < 1 / 1000) :
    consistencyOK [c0] [w0] [z0] = true := by
  rw [consistencyOK_iff]
  intro i hi
  have h0 : i = 0 := by simpa using Nat.lt_one_iff.mp (by simpa using hi)
  subst h0
  simpa using h

/-- A concrete model for witnesses: the solver echoes the cost vector as the
solution with objective value 0, and the sense is minimization. -/
def wModel : OptModel := ⟨fun cost => (cost, 0), .MINIMIZE⟩

/-- Witness for C1 on a one-example batch. -/
theorem c1_forward_loss_formula_witness :
    consistencyOK [[(1 : ℚ), 1]] [[(1 : ℚ), 0]] [(1 : ℚ)] = true ∧
    0 < [(1 : ℚ)].length ∧
    (∃ loss sols,
      SPOPlus.forward wModel 1 0 (fun _ => wModel)
          [[(1 : ℚ), 2]] [[(1 : ℚ), 1]] [[(1 : ℚ), 0]] [(1 : ℚ)] = .ok (loss, sols) ∧
      sols.getD 0 [] =
        (wModel.solve (surrogateCost ([[(1 : ℚ), 2]].getD 0 []) ([[(1 : ℚ), 1]].getD 0 []))).1 ∧
      loss.getD 0 0 =
        -(wModel.solve (surrogateCost ([[(1 : ℚ), 2]].getD 0 []) ([[(1 : ℚ), 1]].getD 0 []))).2
          + 2 * dot ([[(1 : ℚ), 2]].getD 0 []) ([[(1 : ℚ), 0]].getD 0 [])
          - [(1 : ℚ)].getD 0 0) :=
  ⟨consistencyOK_single _ _ _ (by norm_num [dot]), by decide,
    c1_forward_loss_formula wModel 1 0 (fun _ => wModel)
      [[(1 : ℚ), 2]] [[(1 : ℚ), 1]] [[(1 : ℚ), 0]] [(1 : ℚ)]
      (consistencyOK_single _ _ _ (by norm_num [dot])) (fun _ => rfl) 0 (by decide)⟩

/-- C6: on a batch passing the consistency check, the single-worker forward
pass and the multi-worker forward pass (per-example model reconstruction in
the pool, results joined in input order, deterministic solve per objective)
return the same loss vector and the same surrogate solutions. -/
theorem c6_single_multi_worker_equal (optmodel : OptModel) (processes args : ℕ)
    (model_type : ℕ → OptModel) (cp c w : List (List ℚ)) (z : List ℚ)
    (hok : consistencyOK c w z = true)
    (hre : ∀ cost, solveWithObj4Par cost args model_type = optmodel.solve cost)
    (_hp : 1 < processes) :
    SPOPlus.forward optmodel 1 args model_type cp c w z =
      SPOPlus.forward optmodel processes args model_type cp c w z := by
  rw [forward_eq optmodel 1 args model_type cp c w z hok hre,
    forward_eq optmodel processes args model_type cp c w z hok hre]

/-- Witness for C6 with two workers on a one-example batch. -/
theorem c6_single_multi_worker_equal_witness :
    consistencyOK [[(1 : ℚ), 0]] [[(1 : ℚ), 1]] [(1 : ℚ)] = true ∧
    (1 : ℕ) < 2 ∧
    SPOPlus.forward wModel 1 0 (fun _ => wModel)
        [[(2 : ℚ), 1]] [[(1 : ℚ), 0]] [[(1 : ℚ), 1]] [(1 : ℚ)] =
      SPOPlus.forward wModel 2 0 (fun _ => wModel)
        [[(2 : ℚ), 1]] [[(1 : ℚ), 0]] [[(1 : ℚ), 1]] [(1 : ℚ)] :=
  ⟨consistencyOK_single _ _ _ (by norm_num [dot]), by decide,
    c6_single_multi_worker_equal wModel 2 0 (fun _ => wModel)
      [[(2 : ℚ), 1]] [[(1 : ℚ), 0]] [[(1 : ℚ), 1]] [(1 : ℚ)]
      (consistencyOK_single _ _ _ (by norm_num [dot])) (fun _ => rfl) (by decide)⟩

/-!
## The backward pass
-/

/-- Columnwise sum of the `j`-th entries of a batch of rows. -/
def colSum (rows : List (List ℚ)) (j : ℕ) : ℚ := (rows.map fun r => r.getD j 0).sum

theorem getD_map (f : ℚ → ℚ) (l : List ℚ) {j : ℕ} (hj : j < l.length) (d d' : ℚ) :
    (l.map f).getD j d = f (l.getD j d') := by
  rw [List.getD_eq_getElem _ d (by simpa using hj), List.getD_eq_getElem _ d' hj,
    List.getElem_map]

theorem getD_zipWith (f : ℚ → ℚ → ℚ) (a b : List ℚ) {j : ℕ}
    (ha : j < a.length) (hb : j < b.length) (d : ℚ) :
    (List.zipWith f a b).getD j d = f (a.getD j d) (b.getD j d) := by
  rw [List.getD_eq_getElem _ d (by rw [List.length_zipWith]; omega),
    List.getD_eq_getElem _ d ha, List.getD_eq_getElem _ d hb, List.getElem_zipWith]

theorem vsum_length (D : ℕ) : ∀ (rows : List (List ℚ)), rows ≠ [] →
    (∀ r ∈ rows, r.length = D) → (vsum rows).length = D
  | [], hne, _ => absurd rfl hne
  | [r], _, hrows => by simpa [vsum] using hrows r (by simp)
  | r :: s :: t, _, hrows => by
    have ih := vsum_length D (s :: t) (by simp) fun x hx => hrows x (by simp [hx])
    have hr : r.length = D := hrows r (by simp)
    simp only [vsum, List.length_zipWith, ih, hr]
    omega

theorem vsum_getD (D j : ℕ) (hj : j < D) : ∀ (rows : List (List ℚ)), rows ≠ [] →
    (∀ r ∈ rows, r.length = D) → (vsum rows).getD j 0 = colSum rows j
  | [], hne, _ => absurd rfl hne
  | [r], _, _ => by simp [vsum, colSum]
  | r :: s :: t, _, hrows => by
    have ih := vsum_getD D j hj (s :: t) (by simp) fun x hx => hrows x (by simp [hx])
    have hr : r.length = D := hrows r (by simp)
    have hlen : (vsum (s :: t)).length = D :=
      vsum_length D (s :: t) (by simp) fun x hx => hrows x (by simp [hx])
    rw [show vsum (r :: s :: t) = List.zipWith (fun x y => x + y) r (vsum (s :: t)) from rfl,
      getD_zipWith _ _ _ (by omega) (by omega), ih]
    simp [colSum]

theorem matSub_length (a b : List (List ℚ)) :
    (matSub a b).length = min a.length b.length := by
  simp [matSub]

theorem matSub_rows_length (D : ℕ) : ∀ (a b : List (List ℚ)),
    (∀ r ∈ a, r.length = D) → (∀ r ∈ b, r.length = D) →
    ∀ r ∈ matSub a b, r.length = D
  | [], _, _, _ => by simp [matSub]
  | _ :: _, [], _, _ => by simp [matSub]
  | x :: xs, y :: ys, ha, hb => by
    intro r hr
    rw [show matSub (x :: xs) (y :: ys)
        = List.zipWith (fun u v => u - v) x y :: matSub xs ys from rfl] at hr
    rcases List.mem_cons.mp hr with h | h
    · subst h
      have hx : x.length = D := ha x (by simp)
      have hy : y.length = D := hb y (by simp)
      simp [List.length_zipWith, hx, hy]
    · exact matSub_rows_length D xs ys (fun r hr => ha r (by simp [hr]))
        (fun r hr => hb r (by simp [hr])) r h

theorem colSum_matSub (D j : ℕ) (hj : j < D) : ∀ (a b : List (List ℚ)),
    (∀ r ∈ a, r.length = D) → (∀ r ∈ b, r.length = D) → a.length = b.length →
    colSum (matSub a b) j = colSum a j - colSum b j
  | [], [], _, _, _ => by simp [matSub, colSum]
  | [], _ :: _, _, _, hlen => by simp at hlen
  | _ :: _, [], _, _, hlen => by simp at hlen
  | x :: xs, y :: ys, ha, hb, hlen => by
    have ih := colSum_matSub D j hj xs ys (fun r hr => ha r (by simp [hr]))
      (fun r hr => hb r (by simp [hr])) (by simpa using hlen)
    have hx : x.length = D := ha x (by simp)
    have hy : y.length = D := hb y (by simp)
    rw [show matSub (x :: xs) (y :: ys)
        = List.zipWith (fun u v => u - v) x y :: matSub xs ys from rfl]
    simp only [colSum, List.map_cons, List.sum_cons] at *
    rw [getD_zipWith _ _ _ (by omega) (by omega), ih]
    ring

theorem backward_entry (a b : List (List ℚ)) (g : ℚ) (D : ℕ)
    (ha : ∀ r ∈ a, r.length = D) (hb : ∀ r ∈ b, r.length = D)
    (hlen : a.length = b.length) (hane : a ≠ []) :
    (((meanRows (matSub a b)).map (fun x => 2 * x)).map (fun x => g * x)).length = D ∧
    ∀ j < D, (((meanRows (matSub a b)).map (fun x => 2 * x)).map (fun x => g * x)).getD j 0
      = g * (2 * (colSum a j - colSum b j) / (a.length : ℚ)) := by
  have hbne : b ≠ [] := by
    intro h
    subst h
    simp only [List.length_nil] at hlen
    exact hane (List.length_eq_zero.mp hlen)
  have hMne : matSub a b ≠ [] := by
    rcases a with _ | ⟨x, xs⟩
    · exact absurd rfl hane
    rcases b with _ | ⟨y, ys⟩
    · exact absurd rfl hbne
    simp [matSub]
  have hMrows := matSub_rows_length D a b ha hb
  have hMlen : (matSub a b).length = a.length := by
    rw [matSub_length]
    omega
  have hvlen : (vsum (matSub a b)).length = D := vsum_length D _ hMne hMrows
  have hmean : (meanRows (matSub a b)).length = D := by simp [meanRows, hvlen]
  refine ⟨by simp [hmean], fun j hj => ?_⟩
  rw [getD_map _ _ (by rw [List.length_map, hmean]; omega) _ (0 : ℚ),
    getD_map _ _ (by rw [hmean]; omega : j < (meanRows (matSub a b)).length) _ (0 : ℚ)]
  unfold meanRows
  rw [getD_map _ _ (by rw [hvlen]; omega : j < (vsum (matSub a b)).length) _ (0 : ℚ),
    vsum_getD D j hj _ hMne hMrows, colSum_matSub D j hj a b ha hb hlen, hMlen]
  ring

/-- C2: on saved true solutions `w` and surrogate solutions `wq`, the backward
pass returns the upstream gradient times the batch mean of `2 * (w - wq)` as
the gradient of the predicted cost for minimization-sense models
(`2 * (wq - w)` for maximization), and no gradient for the true cost, true
solution and true objective inputs. -/
theorem c2_backward_subgradient (optmodel : OptModel) (w wq : List (List ℚ)) (g : ℚ)
    (D : ℕ) (hw : ∀ r ∈ w, r.length = D) (hwq : ∀ r ∈ wq, r.length = D)
    (hlen : w.length = wq.length) (hne : w ≠ []) :
    ∃ v, SPOPlus.backward optmodel w wq g = (some v, none, none, none) ∧
      v.length = D ∧
      ∀ j < D, v.getD j 0 =
        (match optmodel.modelSense with
         | .MINIMIZE => g * (2 * (colSum w j - colSum wq j) / (w.length : ℚ))
         | .MAXIMIZE => g * (2 * (colSum wq j - colSum w j) / (w.length : ℚ))) := by
  have hwqne : wq ≠ [] := by
    intro h
    subst h
    simp only [List.length_nil] at hlen
    exact hne (List.length_eq_zero.mp hlen)
  cases hs : optmodel.modelSense with
  | MINIMIZE =>
    have h := backward_entry w wq g D hw hwq hlen hne
    refine ⟨_, ?_, h.1, fun j hj => by rw [h.2 j hj]⟩
    unfold SPOPlus.backward
    rw [hs]
  | MAXIMIZE =>
    have h := backward_entry wq w g D hwq hw hlen.symm hwqne
    refine ⟨_, ?_, h.1, fun j hj => by rw [h.2 j hj, hlen]⟩
    unfold SPOPlus.backward
    rw [hs]

/-- Witness for C2 on a two-example batch of 2-dimensional solutions. -/
theorem c2_backward_subgradient_witness :
    (∀ r ∈ [[(1 : ℚ), 0], [0, 1]], r.length = 2) ∧
    (∀ r ∈ [[(0 : ℚ), 1], [1, 0]], r.length = 2) ∧
    ([[(1 : ℚ), 0], [0, 1]].length = [[(0 : ℚ), 1], [1, 0]].length) ∧
    ([[(1 : ℚ), 0], [0, 1]] ≠ []) ∧
    (∃ v, SPOPlus.backward wModel [[(1 : ℚ), 0], [0, 1]] [[(0 : ℚ), 1], [1, 0]] 3
        = (some v, none, none, none) ∧
      v.length = 2 ∧
      ∀ j < 2, v.getD j 0 =
        3 * (2 * (colSum [[(1 : ℚ), 0], [0, 1]] j - colSum [[(0 : ℚ), 1], [1, 0]] j)
          / (([[(1 : ℚ), 0], [0, 1]].length : ℕ) : ℚ))) :=
  ⟨by decide, by decide, by decide, by simp,
    c2_backward_subgradient wModel [[(1 : ℚ), 0], [0, 1]] [[(0 : ℚ), 1], [1, 0]] 3 2
      (by decide) (by decide) (by decide) (by simp)⟩

theorem zipWith_sub_swap : ∀ (a b : List ℚ),
    List.zipWith (fun x y => x - y) b a = (List.zipWith (fun x y => x - y) a b).map Neg.neg
  | [], b => by cases b <;> simp
  | _ :: _, [] => by simp
  | x :: xs, y :: ys => by
    simp only [List.zipWith_cons_cons, List.map_cons, zipWith_sub_swap xs ys]
    congr 1
    exact (neg_sub x y).symm

theorem matSub_swap : ∀ (a b : List (List ℚ)),
    matSub b a = (matSub a b).map (List.map Neg.neg)
  | [], b => by cases b <;> simp [matSub]
  | _ :: _, [] => by simp [matSub]
  | x :: xs, y :: ys => by
    have ih := matSub_swap xs ys
    simp only [matSub] at ih ⊢
    simp only [List.zipWith_cons_cons, List.map_cons, ih]
    congr 1
    exact zipWith_sub_swap x y

theorem zipWith_add_map_neg : ∀ (a b : List ℚ),
    List.zipWith (fun x y => x + y) (a.map Neg.neg) (b.map Neg.neg)
      = (List.zipWith (fun x y => x + y) a b).map Neg.neg
  | [], b => by cases b <;> simp
  | _ :: _, [] => by simp
  | x :: xs, y :: ys => by
    simp only [List.map_cons, List.zipWith_cons_cons, zipWith_add_map_neg xs ys]
    congr 1
    exact (neg_add x y).symm

theorem vsum_map_neg : ∀ (rows : List (List ℚ)),
    vsum (rows.map (List.map Neg.neg)) = (vsum rows).map Neg.neg
  | [] => by simp [vsum]
  | [r] => by simp [vsum]
  | r :: s :: t => by
    have ih := vsum_map_neg (s :: t)
    calc vsum ((r :: s :: t).map (List.map Neg.neg))
        = List.zipWith (fun x y => x + y) (r.map Neg.neg)
            (vsum ((s :: t).map (List.map Neg.neg))) := rfl
      _ = List.zipWith (fun x y => x + y) (r.map Neg.neg)
            ((vsum (s :: t)).map Neg.neg) := by rw [ih]
      _ = (List.zipWith (fun x y => x + y) r (vsum (s :: t))).map Neg.neg :=
            zipWith_add_map_neg r (vsum (s :: t))
      _ = (vsum (r :: s :: t)).map Neg.neg := rfl

theorem meanRows_matSub_swap (a b : List (List ℚ)) :
    meanRows (matSub b a) = (meanRows (matSub a b)).map Neg.neg := by
  unfold meanRows
  rw [matSub_swap a b, vsum_map_neg, List.length_map, List.map_map, List.map_map]
  refine List.map_congr_left fun x _ => ?_
  simp [neg_div]

theorem backward_flip (optmodel : OptModel) (hmin : optmodel.modelSense = .MINIMIZE)
    (w wq : List (List ℚ)) (g : ℚ) :
    ∃ v, SPOPlus.backward optmodel w wq g = (some v, none, none, none) ∧
      SPOPlus.backward { optmodel with modelSense := .MAXIMIZE } w wq g
        = (some (v.map Neg.neg), none, none, none) := by
  refine ⟨((meanRows (matSub w wq)).map (fun x => 2 * x)).map (fun x => g * x), ?_, ?_⟩
  · unfold SPOPlus.backward
    rw [hmin]
  · unfold SPOPlus.backward
    show (some (((meanRows (matSub wq w)).map (fun x => 2 * x)).map (fun x => g * x)),
        none, none, none) = _
    rw [meanRows_matSub_swap w wq]
    simp only [List.map_map]
    have hmaps : (meanRows (matSub w wq)).map ((fun x => g * x) ∘ (fun x => 2 * x) ∘ Neg.neg)
        = (meanRows (matSub w wq)).map (Neg.neg ∘ (fun x => g * x) ∘ (fun x => 2 * x)) :=
      List.map_congr_left fun x _ => by
        simp only [Function.comp_apply]
        ring
    rw [hmaps]

/-- C7: flipping the bound model's sense from minimize to maximize, all other
inputs identical, negates every entry of the forward loss vector and negates
the gradient returned by backward. -/
theorem c7_sense_flip_negates (optmodel : OptModel) (processes args : ℕ)
    (model_type : ℕ → OptModel) (cp c w : List (List ℚ)) (z : List ℚ)
    (w2 wq : List (List ℚ)) (g : ℚ)
    (hmin : optmodel.modelSense = .MINIMIZE)
    (hok : consistencyOK c w z = true)
    (hre : ∀ cost, solveWithObj4Par cost args model_type = optmodel.solve cost) :
    ∃ loss sols v,
      SPOPlus.forward optmodel processes args model_type cp c w z = .ok (loss, sols) ∧
      SPOPlus.forward { optmodel with modelSense := .MAXIMIZE } processes args model_type
          cp c w z = .ok (loss.map Neg.neg, sols) ∧
      SPOPlus.backward optmodel w2 wq g = (some v, none, none, none) ∧
      SPOPlus.backward { optmodel with modelSense := .MAXIMIZE } w2 wq g
        = (some (v.map Neg.neg), none, none, none) := by
  obtain ⟨v, hb1, hb2⟩ := backward_flip optmodel hmin w2 wq g
  refine ⟨(List.range z.length).map (exLoss optmodel cp c w z),
    (List.range z.length).map (exSol optmodel cp c), v, ?_, ?_, hb1, hb2⟩
  · rw [forward_eq optmodel processes args model_type cp c w z hok hre, hmin]
  · rw [forward_eq { optmodel with modelSense := .MAXIMIZE } processes args model_type
      cp c w z hok hre]
    rfl

/-- Witness for C7 on a one-example batch. -/
theorem c7_sense_flip_negates_witness :
    wModel.modelSense = .MINIMIZE ∧
    consistencyOK [[(1 : ℚ), 1]] [[(1 : ℚ), 0]] [(1 : ℚ)] = true ∧
    (∃ loss sols v,
      SPOPlus.forward wModel 1 0 (fun _ => wModel)
          [[(1 : ℚ), 2]] [[(1 : ℚ), 1]] [[(1 : ℚ), 0]] [(1 : ℚ)] = .ok (loss, sols) ∧
      SPOPlus.forward { wModel with modelSense := .MAXIMIZE } 1 0 (fun _ => wModel)
          [[(1 : ℚ), 2]] [[(1 : ℚ), 1]] [[(1 : ℚ), 0]] [(1 : ℚ)]
        = .ok (loss.map Neg.neg, sols) ∧
      SPOPlus.backward wModel [[(1 : ℚ), 0]] [[(0 : ℚ), 1]] 2 = (some v, none, none, none) ∧
      SPOPlus.backward { wModel with modelSense := .MAXIMIZE } [[(1 : ℚ), 0]] [[(0 : ℚ), 1]] 2
        = (some (v.map Neg.neg), none, none, none)) :=
  ⟨rfl, consistencyOK_single _ _ _ (by norm_num [dot]),
    c7_sense_flip_negates wModel 1 0 (fun _ => wModel)
      [[(1 : ℚ), 2]] [[(1 : ℚ), 1]] [[(1 : ℚ), 0]] [(1 : ℚ)]
      [[(1 : ℚ), 0]] [[(0 : ℚ), 1]] 2
      rfl (consistencyOK_single _ _ _ (by norm_num [dot])) (fun _ => rfl)⟩

/-!
## C5: `getTour` on a Hamiltonian-cycle solution
-/

/-- The `i`-th node of a cyclic arrangement given by the list `p` (indices
wrap around). -/
def cyc (p : List ℕ) (i : ℕ) : ℕ := p.getD (i % p.length) 0

/-- `e` is an edge of the cycle `p`: its endpoints are consecutive in `p`
(cyclically, in either orientation). -/
def isConsecPair (p : List ℕ) (e : ℕ × ℕ) : Prop :=
  ∃ i < p.length, (e.1 = cyc p i ∧ e.2 = cyc p (i + 1)) ∨
    (e.2 = cyc p i ∧ e.1 = cyc p (i + 1))

theorem mem_tspEdges {n a b : ℕ} : (a, b) ∈ tspEdges n ↔ a < b ∧ b < n := by
  unfold tspEdges
  simp only [List.mem_flatMap, List.mem_map, List.mem_filter, List.mem_range,
    decide_eq_true_eq, Prod.mk.injEq]
  constructor
  · rintro ⟨i, _, j, ⟨hj, hij⟩, rfl, rfl⟩
    exact ⟨hij, hj⟩
  · rintro ⟨hab, hb⟩
    exact ⟨a, by omega, b, ⟨hb, hab⟩, rfl, rfl⟩

theorem mem_iff_getD {α : Type} (l : List α) (d : α) (e : α) :
    e ∈ l ↔ ∃ k < l.length, l.getD k d = e := by
  rw [List.mem_iff_get]
  constructor
  · rintro ⟨⟨k, hk⟩, h⟩
    refine ⟨k, hk, ?_⟩
    rw [List.getD_eq_getElem _ _ hk]
    simpa using h
  · rintro ⟨k, hk, h⟩
    refine ⟨⟨k, hk⟩, ?_⟩
    rw [← h, List.getD_eq_getElem _ _ hk]
    simp

theorem mem_activePairs {edges : List (ℕ × ℕ)} {sol : List ℚ}
    (hs : sol.length = edges.length) (e : ℕ × ℕ) :
    e ∈ activePairs edges sol ↔
      ∃ k < edges.length, edges.getD k (0, 0) = e ∧ (1 : ℚ) / 100 < sol.getD k 0 := by
  unfold activePairs
  simp only [List.mem_map, List.mem_filter, decide_eq_true_eq]
  constructor
  · rintro ⟨q, ⟨hqzip, hqgt⟩, hq1⟩
    obtain ⟨⟨k, hk⟩, hget⟩ := List.mem_iff_get.mp hqzip
    have hke : k < edges.length := by
      have := hk
      rw [List.length_zip] at this
      omega
    have hks : k < sol.length := by omega
    refine ⟨k, hke, ?_, ?_⟩
    · rw [List.getD_eq_getElem _ _ hke]
      have : q.1 = edges[k] := by
        rw [← hget]
        simp [List.getElem_zip]
      rw [← hq1, this]
    · rw [List.getD_eq_getElem _ _ hks]
      have : q.2 = sol[k] := by
        rw [← hget]
        simp [List.getElem_zip]
      rw [← this]
      exact hqgt
  · rintro ⟨k, hk, he, hgt⟩
    have hks : k < sol.length := by omega
    have hkz : k < (edges.zip sol).length := by
      rw [List.length_zip]
      omega
    refine ⟨(edges[k], sol[k]), ⟨?_, ?_⟩, ?_⟩
    · have : (edges.zip sol).get ⟨k, hkz⟩ = (edges[k], sol[k]) := by
        simp [List.getElem_zip]
      exact this ▸ List.get_mem (edges.zip sol) k hkz
    · rw [List.getD_eq_getElem _ _ hks] at hgt
      exact hgt
    · rw [List.getD_eq_getElem _ _ hk] at he
      exact he

theorem mem_adjOf {act : List (ℕ × ℕ)} {v x : ℕ} :
    x ∈ adjOf act v ↔ (v, x) ∈ act ∨ (x, v) ∈ act := by
  unfold adjOf
  simp only [List.mem_flatMap, List.mem_append]
  constructor
  · rintro ⟨q, hq, hx⟩
    rcases hx with h | h
    · by_cases hv : v = q.1
      · rw [if_pos hv] at h
        simp only [List.mem_singleton] at h
        left
        rw [hv, h]
        simpa using hq
      · rw [if_neg hv] at h
        simp at h
    · by_cases hv : v = q.2
      · rw [if_pos hv] at h
        simp only [List.mem_singleton] at h
        right
        rw [h, hv]
        simpa using hq
      · rw [if_neg hv] at h
        simp at h
  · rintro (h | h)
    · exact ⟨(v, x), h, Or.inl (by simp)⟩
    · exact ⟨(x, v), h, Or.inr (by simp)⟩

theorem find?_eq_of_mem_of_unique {l : List ℕ} {pr : ℕ → Bool} {a : ℕ}
    (ha : a ∈ l) (hpa : pr a = true) (huniq : ∀ x ∈ l, pr x = true → x = a) :
    l.find? pr = some a := by
  induction l with
  | nil => simp at ha
  | cons y ys ih =>
    by_cases hy : pr y = true
    · have hya : y = a := huniq y (by simp) hy
      subst hya
      simp [List.find?_cons, hy]
    · rw [List.find?_cons_of_neg _ hy]
      have hays : a ∈ ys := by
        rcases List.mem_cons.mp ha with h | h
        · subst h
          exact absurd hpa hy
        · exact h
      exact ih hays fun x hx hprx => huniq x (by simp [hx]) hprx

theorem find?_eq_head_of_all {l : List ℕ} {pr : ℕ → Bool}
    (hne : l ≠ []) (hall : ∀ x ∈ l, pr x = true) :
    l.find? pr = some l.headI := by
  cases l with
  | nil => exact absurd rfl hne
  | cons y ys => simp [List.find?_cons, hall y (by simp)]

theorem headI_reverse_map_range {f : ℕ → ℕ} {n : ℕ} (hn : 0 < n) :
    (((List.range n).map f).reverse).headI = f (n - 1) := by
  rw [show n = (n - 1) + 1 by omega, List.range_succ]
  simp

theorem getD_zero_headI (p : List ℕ) (hne : p ≠ []) : p.getD 0 0 = p.headI := by
  cases p with
  | nil => exact absurd rfl hne
  | cons a l => rfl

theorem cyc_add_n {p : List ℕ} {n : ℕ} (hplen : p.length = n) (i : ℕ) :
    cyc p (i + n) = cyc p i := by
  unfold cyc
  rw [hplen, Nat.add_mod_right]

theorem cyc_mod {p : List ℕ} {n : ℕ} (hplen : p.length = n) (i : ℕ) :
    cyc p (i % n) = cyc p i := by
  unfold cyc
  rw [hplen, Nat.mod_mod_of_dvd i dvd_rfl]

theorem cyc_lt {p : List ℕ} {n : ℕ} (hplen : p.length = n) (hn : 0 < n)
    (hpmem : ∀ x, x ∈ p ↔ x < n) (i : ℕ) : cyc p i < n := by
  unfold cyc
  have hb : i % p.length < p.length := Nat.mod_lt _ (by omega)
  rw [List.getD_eq_getElem _ _ hb]
  exact (hpmem _).mp (List.getElem_mem hb)

theorem cyc_inj {p : List ℕ} {n : ℕ} (hplen : p.length = n) (hpnodup : p.Nodup)
    {i j : ℕ} (hi : i < n) (hj : j < n) (heq : cyc p i = cyc p j) : i = j := by
  unfold cyc at heq
  have hi2 : i < p.length := by omega
  have hj2 : j < p.length := by omega
  rw [hplen, Nat.mod_eq_of_lt hi, Nat.mod_eq_of_lt hj] at heq
  rw [List.getD_eq_getElem _ _ hi2, List.getD_eq_getElem _ _ hj2] at heq
  exact hpnodup.getElem_inj_iff.mp heq

theorem cyc_surj {p : List ℕ} {n : ℕ} (hplen : p.length = n)
    (hpmem : ∀ x, x ∈ p ↔ x < n) {x : ℕ} (hx : x < n) : ∃ i < n, cyc p i = x := by
  obtain ⟨⟨i, hi⟩, hget⟩ := List.mem_iff_get.mp ((hpmem x).mpr hx)
  refine ⟨i, by omega, ?_⟩
  unfold cyc
  rw [Nat.mod_eq_of_lt (by omega), List.getD_eq_getElem _ _ hi]
  simpa using hget

theorem cyc_zero {p : List ℕ} {n : ℕ} (hplen : p.length = n) (hn : 0 < n)
    (hphead : p.headI = 0) : cyc p 0 = 0 := by
  unfold cyc
  rw [Nat.zero_mod, getD_zero_headI p (by intro h; rw [h] at hplen; simp at hplen; omega)]
  exact hphead

theorem mem_act_cycle {n : ℕ} {sol : List ℚ} {p : List ℕ}
    (hsol : sol.length = (tspEdges n).length)
    (hact : ∀ k < (tspEdges n).length,
      ((1 : ℚ) / 100 < sol.getD k 0 ↔ isConsecPair p ((tspEdges n).getD k (0, 0))))
    (e : ℕ × ℕ) :
    e ∈ activePairs (tspEdges n) sol ↔ e ∈ tspEdges n ∧ isConsecPair p e := by
  rw [mem_activePairs hsol]
  constructor
  · rintro ⟨k, hk, he, hgt⟩
    have hcons := (hact k hk).mp hgt
    rw [he] at hcons
    exact ⟨(mem_iff_getD _ (0, 0) _).mpr ⟨k, hk, he⟩, hcons⟩
  · rintro ⟨hmem, hcons⟩
    obtain ⟨k, hk, he⟩ := (mem_iff_getD _ (0, 0) _).mp hmem
    refine ⟨k, hk, he, (hact k hk).mpr ?_⟩
    rw [he]
    exact hcons

theorem succ_mod_eq {m n : ℕ} (hm : m < n) :
    (m + 1) % n = if m + 1 = n then 0 else m + 1 := by
  split
  · next h => rw [h, Nat.mod_self]
  · next h => exact Nat.mod_eq_of_lt (by omega)

theorem prev_mod_eq {i n : ℕ} (hi : i < n) (hn : 0 < n) :
    (i + (n - 1)) % n = if i = 0 then n - 1 else i - 1 := by
  split
  · next h =>
    subst h
    rw [Nat.zero_add]
    exact Nat.mod_eq_of_lt (by omega)
  · next h =>
    rw [show i + (n - 1) = (i - 1) + n by omega, Nat.add_mod_right]
    exact Nat.mod_eq_of_lt (by omega)

theorem isConsecPair_swap {p : List ℕ} {a b : ℕ} (h : isConsecPair p (a, b)) :
    isConsecPair p (b, a) := by
  obtain ⟨m, hm, hc⟩ := h
  rcases hc with ⟨h1, h2⟩ | ⟨h1, h2⟩
  · exact ⟨m, hm, Or.inr ⟨h1, h2⟩⟩
  · exact ⟨m, hm, Or.inl ⟨h1, h2⟩⟩

theorem consec_neighbor {n : ℕ} {p : List ℕ} (hn : 2 ≤ n)
    (hplen : p.length = n) (hpnodup : p.Nodup)
    {i : ℕ} (hi : i < n) {x : ℕ}
    (hcons : isConsecPair p (cyc p i, x)) :
    x = cyc p (i + 1) ∨ x = cyc p (i + (n - 1)) := by
  have hn0 : 0 < n := by omega
  obtain ⟨m, hm, hc⟩ := hcons
  rw [hplen] at hm
  rcases hc with ⟨h1, h2⟩ | ⟨h1, h2⟩ <;> dsimp only at h1 h2
  · have him : i = m := cyc_inj hplen hpnodup hi hm h1
    subst him
    exact Or.inl h2
  · have hmod : cyc p ((m + 1) % n) = cyc p (m + 1) := cyc_mod hplen _
    have him : i = (m + 1) % n :=
      cyc_inj hplen hpnodup hi (Nat.mod_lt _ hn0) (h2.trans hmod.symm)
    right
    rw [h1]
    rw [succ_mod_eq hm] at him
    by_cases hmn : m + 1 = n
    · rw [if_pos hmn] at him
      subst him
      rw [show m = n - 1 by omega, Nat.zero_add]
    · rw [if_neg hmn] at him
      subst him
      rw [show m + 1 + (n - 1) = m + n by omega, cyc_add_n hplen]

theorem adj_of_cycle {n : ℕ} {sol : List ℚ} {p : List ℕ}
    (hn : 2 ≤ n) (hplen : p.length = n) (hpnodup : p.Nodup)
    (hpmem : ∀ x, x ∈ p ↔ x < n)
    (hsol : sol.length = (tspEdges n).length)
    (hact : ∀ k < (tspEdges n).length,
      ((1 : ℚ) / 100 < sol.getD k 0 ↔ isConsecPair p ((tspEdges n).getD k (0, 0))))
    {i : ℕ} (hi : i < n) (x : ℕ) :
    x ∈ adjOf (activePairs (tspEdges n) sol) (cyc p i) ↔
      (x = cyc p (i + 1) ∨ x = cyc p (i + (n - 1))) := by
  have hn0 : 0 < n := by omega
  rw [mem_adjOf]
  constructor
  · rintro (h | h)
    · exact consec_neighbor hn hplen hpnodup hi ((mem_act_cycle hsol hact _).mp h).2
    · exact consec_neighbor hn hplen hpnodup hi
        (isConsecPair_swap ((mem_act_cycle hsol hact _).mp h).2)
  · have hvlt : cyc p i < n := cyc_lt hplen hn0 hpmem i
    rintro (hx | hx)
    · have hxlt : x < n := by
        rw [hx]
        exact cyc_lt hplen hn0 hpmem _
      have hne : cyc p i ≠ x := by
        intro he
        have h2 : cyc p i = cyc p ((i + 1) % n) := by rw [cyc_mod hplen, ← hx, he]
        have := cyc_inj hplen hpnodup hi (Nat.mod_lt _ hn0) h2
        rw [succ_mod_eq hi] at this
        by_cases hin : i + 1 = n
        · rw [if_pos hin] at this
          omega
        · rw [if_neg hin] at this
          omega
      have hcons : isConsecPair p (cyc p i, x) := ⟨i, by omega, Or.inl ⟨rfl, hx⟩⟩
      by_cases horder : cyc p i < x
      · exact Or.inl ((mem_act_cycle hsol hact _).mpr
          ⟨mem_tspEdges.mpr ⟨horder, hxlt⟩, hcons⟩)
      · exact Or.inr ((mem_act_cycle hsol hact _).mpr
          ⟨mem_tspEdges.mpr ⟨by omega, hvlt⟩, isConsecPair_swap hcons⟩)
    · have hxlt : x < n := by
        rw [hx]
        exact cyc_lt hplen hn0 hpmem _
      have hmlt : (i + (n - 1)) % n < n := Nat.mod_lt _ hn0
      have hxm : x = cyc p ((i + (n - 1)) % n) := by rw [cyc_mod hplen]; exact hx
      have hsucc : cyc p ((i + (n - 1)) % n + 1) = cyc p i := by
        rw [prev_mod_eq hi hn0]
        by_cases hiz : i = 0
        · rw [if_pos hiz, show n - 1 + 1 = n by omega, show n = 0 + n by omega,
            cyc_add_n hplen, hiz]
        · rw [if_neg hiz, show i - 1 + 1 = i by omega]
      have hne : cyc p i ≠ x := by
        intro he
        have := cyc_inj hplen hpnodup hi hmlt (he.trans hxm)
        rw [prev_mod_eq hi hn0] at this
        by_cases hiz : i = 0
        · rw [if_pos hiz] at this
          omega
        · rw [if_neg hiz] at this
          omega
      have hcons : isConsecPair p (cyc p i, x) :=
        ⟨(i + (n - 1)) % n, by omega, Or.inr ⟨hxm, hsucc.symm⟩⟩
      by_cases horder : cyc p i < x
      · exact Or.inl ((mem_act_cycle hsol hact _).mpr
          ⟨mem_tspEdges.mpr ⟨horder, hxlt⟩, hcons⟩)
      · exact Or.inr ((mem_act_cycle hsol hact _).mpr
          ⟨mem_tspEdges.mpr ⟨by omega, hvlt⟩, isConsecPair_swap hcons⟩)

theorem tourLoop_succ (adj : ℕ → List ℕ) (numKeys fuel : ℕ) (tourRev : List ℕ) :
    tourLoop adj numKeys (fuel + 1) tourRev =
      if tourRev.length < numKeys then
        match (adj tourRev.headI).find? (fun j => !(tourRev.contains j)) with
        | some j => tourLoop adj numKeys fuel (j :: tourRev)
        | none => none
      else some tourRev := rfl

theorem tourLoop_arc (adj : ℕ → List ℕ) (n : ℕ) (W : ℕ → ℕ)
    (hinj : ∀ i j, i < n → j < n → W i = W j → i = j)
    (hper : ∀ i, W (i + n) = W i)
    (hadj : ∀ i < n, ∀ x, x ∈ adj (W i) ↔ (x = W (i + 1) ∨ x = W (i + (n - 1)))) :
    ∀ fuel k, 2 ≤ k → k ≤ n → n - k < fuel →
      tourLoop adj n fuel (((List.range k).map W).reverse)
        = some (((List.range n).map W).reverse) := by
  intro fuel
  induction fuel with
  | zero =>
    intro k h2 hkn hf
    omega
  | succ f ih =>
    intro k h2 hkn hf
    rw [tourLoop_succ]
    have hlen : (((List.range k).map W).reverse).length = k := by simp
    by_cases hkeq : k = n
    · subst hkeq
      rw [if_neg (by omega)]
    · have hklt : k < n := by omega
      rw [if_pos (by omega)]
      rw [headI_reverse_map_range (show 0 < k by omega)]
      have hfind : (adj (W (k - 1))).find?
          (fun j => !((((List.range k).map W).reverse).contains j)) = some (W k) := by
        apply find?_eq_of_mem_of_unique
        · exact (hadj (k - 1) (by omega) (W k)).mpr
            (Or.inl (by rw [show k - 1 + 1 = k by omega]))
        · have hnm : W k ∉ ((List.range k).map W).reverse := by
            intro hmem
            obtain ⟨j, hj, hje⟩ : ∃ j < k, W j = W k := by simpa using hmem
            have := hinj j k (by omega) (by omega) hje
            omega
          simpa using hnm
        · intro x hx hpx
          have hxnm : x ∉ ((List.range k).map W).reverse := by simpa using hpx
          rcases (hadj (k - 1) (by omega) x).mp hx with h | h
          · rw [show k - 1 + 1 = k by omega] at h
            exact h
          · exfalso
            rw [show k - 1 + (n - 1) = (k - 2) + n by omega, hper] at h
            apply hxnm
            rw [h]
            simp only [List.mem_reverse, List.mem_map, List.mem_range]
            exact ⟨k - 2, by omega, rfl⟩
      simp only [hfind]
      rw [show W k :: ((List.range k).map W).reverse
          = ((List.range (k + 1)).map W).reverse by rw [List.range_succ]; simp]
      exact ih (k + 1) (by omega) (by omega) (by omega)

theorem dictKeys_count {n : ℕ} {sol : List ℚ} {p : List ℕ}
    (hn : 2 ≤ n) (hplen : p.length = n) (hpnodup : p.Nodup)
    (hpmem : ∀ x, x ∈ p ↔ x < n)
    (hsol : sol.length = (tspEdges n).length)
    (hact : ∀ k < (tspEdges n).length,
      ((1 : ℚ) / 100 < sol.getD k 0 ↔ isConsecPair p ((tspEdges n).getD k (0, 0)))) :
    (dictKeys (activePairs (tspEdges n) sol)).length = n := by
  have hmemL : ∀ x,
      (x ∈ (activePairs (tspEdges n) sol).flatMap fun q => [q.1, q.2]) ↔ x < n := by
    intro x
    constructor
    · intro hx
      obtain ⟨e, he, hxe⟩ := List.mem_flatMap.mp hx
      obtain ⟨a, b⟩ := e
      have hedge := mem_tspEdges.mp ((mem_act_cycle hsol hact _).mp he).1
      rcases List.mem_cons.mp hxe with h | h
      · subst h; omega
      · simp only [List.mem_singleton] at h
        subst h; omega
    · intro hx
      obtain ⟨i, hi, hWi⟩ := cyc_surj hplen hpmem hx
      have hmem : cyc p (i + 1) ∈ adjOf (activePairs (tspEdges n) sol) (cyc p i) :=
        (adj_of_cycle hn hplen hpnodup hpmem hsol hact hi (cyc p (i + 1))).mpr (Or.inl rfl)
      rcases mem_adjOf.mp hmem with h | h
      · exact List.mem_flatMap.mpr ⟨_, h, by simp [hWi]⟩
      · exact List.mem_flatMap.mpr ⟨_, h, by simp [hWi]⟩
  unfold dictKeys
  rw [← List.card_toFinset]
  have hfin : ((activePairs (tspEdges n) sol).flatMap fun q => [q.1, q.2]).toFinset
      = Finset.range n := by
    ext a
    simp only [List.mem_toFinset, Finset.mem_range]
    exact hmemL a
  rw [hfin, Finset.card_range]

theorem getTour_assemble {n : ℕ} {sol : List ℚ} (Wd : ℕ → ℕ) (hn : 2 ≤ n)
    (hinj : ∀ i j, i < n → j < n → Wd i = Wd j → i = j)
    (hper : ∀ i, Wd (i + n) = Wd i)
    (hadjd : ∀ i < n, ∀ x, x ∈ adjOf (activePairs (tspEdges n) sol) (Wd i) ↔
      (x = Wd (i + 1) ∨ x = Wd (i + (n - 1))))
    (hW0 : Wd 0 = 0) (hlt : ∀ i, Wd i < n) (hsurj : ∀ x < n, ∃ i < n, Wd i = x)
    (hnk : (dictKeys (activePairs (tspEdges n) sol)).length = n)
    (hwalk : tourLoop (adjOf (activePairs (tspEdges n) sol))
        ((dictKeys (activePairs (tspEdges n) sol)).length)
        ((dictKeys (activePairs (tspEdges n) sol)).length + 1) [0]
        = some (((List.range n).map Wd).reverse)) :
    ∃ mid, tspABModel.getTour n sol = some (0 :: (mid ++ [0])) ∧ mid.Nodup ∧
      ∀ x, x ∈ mid ↔ (x < n ∧ x ≠ 0) := by
  have h0mem : (0 : ℕ) ∈ adjOf (activePairs (tspEdges n) sol) (Wd (n - 1)) :=
    (hadjd (n - 1) (by omega) 0).mpr
      (Or.inl (by rw [show n - 1 + 1 = n by omega, show n = 0 + n by omega, hper, hW0]))
  refine ⟨(List.range (n - 1)).map (fun j => Wd (j + 1)), ?_, ?_, ?_⟩
  · simp only [tspABModel.getTour]
    rw [hwalk]
    show (if (adjOf (activePairs (tspEdges n) sol)
        (((List.range n).map Wd).reverse.headI)).contains 0 = true
      then some ((((List.range n).map Wd).reverse).reverse ++ [0])
      else some (((List.range n).map Wd).reverse).reverse) = _
    rw [headI_reverse_map_range (show 0 < n by omega),
      if_pos (by simpa using h0mem), List.reverse_reverse]
    have hsplit : (List.range n).map Wd
        = 0 :: (List.range (n - 1)).map (fun j => Wd (j + 1)) := by
      rw [show n = (n - 1) + 1 by omega, List.range_succ_eq_map]
      simp [hW0, List.map_map, Function.comp_def, Nat.succ_eq_add_one]
    rw [hsplit]
    rfl
  · refine List.Nodup.map_on ?_ (List.nodup_range _)
    intro x hx y hy he
    simp only [List.mem_range] at hx hy
    have := hinj (x + 1) (y + 1) (by omega) (by omega) he
    omega
  · intro x
    simp only [List.mem_map, List.mem_range]
    constructor
    · rintro ⟨j, hj, rfl⟩
      refine ⟨hlt _, ?_⟩
      intro h0
      have := hinj (j + 1) 0 (by omega) (by omega) (by rw [h0, hW0])
      omega
    · rintro ⟨hx, hx0⟩
      obtain ⟨i, hi, hWi⟩ := hsurj x hx
      have hiz : i ≠ 0 := by
        intro h
        subst h
        rw [hW0] at hWi
        exact hx0 hWi.symm
      exact ⟨i - 1, by omega, by rw [show i - 1 + 1 = i by omega]; exact hWi⟩

theorem headI_mem_of_ne_nil {l : List ℕ} (h : l ≠ []) : l.headI ∈ l := by
  cases l with
  | nil => exact absurd rfl h
  | cons a t => simp

/-- The reversed orientation of a cyclic arrangement of `n` nodes. -/
def revCyc (p : List ℕ) (n : ℕ) (i : ℕ) : ℕ := cyc p (n - i % n)

theorem revCyc_per (p : List ℕ) (n : ℕ) (i : ℕ) :
    revCyc p n (i + n) = revCyc p n i := by
  unfold revCyc
  rw [Nat.add_mod_right]

theorem revCyc_norm {p : List ℕ} {n : ℕ} (hplen : p.length = n) (_hn : 0 < n)
    {i : ℕ} (hi : i < n) :
    revCyc p n i = cyc p (if i = 0 then 0 else n - i) := by
  unfold revCyc
  rw [Nat.mod_eq_of_lt hi]
  split
  · next h =>
    subst h
    rw [Nat.sub_zero, show n = 0 + n by omega, cyc_add_n hplen]
  · next h => rfl

theorem revCyc_zero {p : List ℕ} {n : ℕ} (hplen : p.length = n) (hn : 0 < n)
    (hphead : p.headI = 0) : revCyc p n 0 = 0 := by
  rw [revCyc_norm hplen hn (by omega), if_pos rfl]
  exact cyc_zero hplen hn hphead

theorem revCyc_lt {p : List ℕ} {n : ℕ} (hplen : p.length = n) (hn : 0 < n)
    (hpmem : ∀ x, x ∈ p ↔ x < n) (i : ℕ) : revCyc p n i < n := by
  unfold revCyc
  exact cyc_lt hplen hn hpmem _

theorem revCyc_inj {p : List ℕ} {n : ℕ} (hplen : p.length = n) (hpnodup : p.Nodup)
    (hn : 2 ≤ n) {i j : ℕ} (hi : i < n) (hj : j < n)
    (he : revCyc p n i = revCyc p n j) : i = j := by
  rw [revCyc_norm hplen (by omega) hi, revCyc_norm hplen (by omega) hj] at he
  have h2 := cyc_inj hplen hpnodup (show (if i = 0 then 0 else n - i) < n by split <;> omega)
    (show (if j = 0 then 0 else n - j) < n by split <;> omega) he
  split_ifs at h2 <;> omega

theorem revCyc_surj {p : List ℕ} {n : ℕ} (hplen : p.length = n)
    (hpmem : ∀ x, x ∈ p ↔ x < n) (hn : 2 ≤ n) {x : ℕ} (hx : x < n) :
    ∃ i < n, revCyc p n i = x := by
  obtain ⟨i0, hi0, hWi⟩ := cyc_surj hplen hpmem hx
  refine ⟨if i0 = 0 then 0 else n - i0, by split <;> omega, ?_⟩
  rw [revCyc_norm hplen (by omega) (by split <;> omega)]
  by_cases h0 : i0 = 0
  · subst h0
    simpa using hWi
  · rw [if_neg h0, if_neg (by omega), show n - (n - i0) = i0 by omega]
    exact hWi

theorem revCyc_adj {n : ℕ} {sol : List ℚ} {p : List ℕ}
    (hn : 2 ≤ n) (hplen : p.length = n) (hpnodup : p.Nodup)
    (hpmem : ∀ x, x ∈ p ↔ x < n)
    (hsol : sol.length = (tspEdges n).length)
    (hact : ∀ k < (tspEdges n).length,
      ((1 : ℚ) / 100 < sol.getD k 0 ↔ isConsecPair p ((tspEdges n).getD k (0, 0))))
    {i : ℕ} (hi : i < n) (x : ℕ) :
    x ∈ adjOf (activePairs (tspEdges n) sol) (revCyc p n i) ↔
      (x = revCyc p n (i + 1) ∨ x = revCyc p n (i + (n - 1))) := by
  have hn0 : 0 < n := by omega
  rw [revCyc_norm hplen hn0 hi]
  have hm : (if i = 0 then 0 else n - i) < n := by split <;> omega
  rw [adj_of_cycle hn hplen hpnodup hpmem hsol hact hm x]
  have hA : revCyc p n (i + 1) = cyc p ((if i = 0 then 0 else n - i) + (n - 1)) := by
    by_cases hin : i + 1 = n
    · have hiz : i ≠ 0 := by omega
      rw [if_neg hiz, hin, show n - i = 1 by omega, show 1 + (n - 1) = n by omega]
      unfold revCyc
      rw [Nat.mod_self, Nat.sub_zero]
    · rw [revCyc_norm hplen hn0 (show i + 1 < n by omega), if_neg (by omega)]
      by_cases hiz : i = 0
      · subst hiz
        rw [if_pos rfl]
        simp only [Nat.zero_add]
      · rw [if_neg hiz, show (n - i) + (n - 1) = (n - (i + 1)) + n by omega,
          cyc_add_n hplen]
  have hB : revCyc p n (i + (n - 1)) = cyc p ((if i = 0 then 0 else n - i) + 1) := by
    unfold revCyc
    rw [prev_mod_eq hi hn0]
    by_cases hiz : i = 0
    · simp only [if_pos hiz]
      rw [show n - (n - 1) = 1 by omega, Nat.zero_add]
    · simp only [if_neg hiz]
      rw [show n - (i - 1) = (n - i) + 1 by omega]
  rw [hA, hB]
  exact or_comm

theorem getTour_cycle_main {n : ℕ} {sol : List ℚ} {p : List ℕ}
    (hn : 2 ≤ n) (hplen : p.length = n) (hpnodup : p.Nodup) (hphead : p.headI = 0)
    (hpmem : ∀ x, x ∈ p ↔ x < n)
    (hsol : sol.length = (tspEdges n).length)
    (hact : ∀ k < (tspEdges n).length,
      ((1 : ℚ) / 100 < sol.getD k 0 ↔ isConsecPair p ((tspEdges n).getD k (0, 0)))) :
    ∃ mid, tspABModel.getTour n sol = some (0 :: (mid ++ [0])) ∧ mid.Nodup ∧
      ∀ x, x ∈ mid ↔ (x < n ∧ x ≠ 0) := by
  have hn0 : 0 < n := by omega
  have hinj : ∀ i j, i < n → j < n → cyc p i = cyc p j → i = j :=
    fun i j hi hj => cyc_inj hplen hpnodup hi hj
  have hper := cyc_add_n hplen
  have hadjW : ∀ i < n, ∀ x, x ∈ adjOf (activePairs (tspEdges n) sol) (cyc p i) ↔
      (x = cyc p (i + 1) ∨ x = cyc p (i + (n - 1))) :=
    fun i hi x => adj_of_cycle hn hplen hpnodup hpmem hsol hact hi x
  have hW0 : cyc p 0 = 0 := cyc_zero hplen hn0 hphead
  have hlt : ∀ i, cyc p i < n := cyc_lt hplen hn0 hpmem
  have hnk := dictKeys_count hn hplen hpnodup hpmem hsol hact
  have h0adj : ∀ x, x ∈ adjOf (activePairs (tspEdges n) sol) 0 ↔
      (x = cyc p 1 ∨ x = cyc p (n - 1)) := by
    intro x
    have h := hadjW 0 hn0 x
    rw [hW0] at h
    simpa using h
  have hne0 : adjOf (activePairs (tspEdges n) sol) 0 ≠ [] :=
    List.ne_nil_of_mem ((h0adj (cyc p 1)).mpr (Or.inl rfl))
  have hh0mem : (adjOf (activePairs (tspEdges n) sol) 0).headI
      ∈ adjOf (activePairs (tspEdges n) sol) 0 := headI_mem_of_ne_nil hne0
  have hstep : tourLoop (adjOf (activePairs (tspEdges n) sol)) n (n + 1) [0]
      = tourLoop (adjOf (activePairs (tspEdges n) sol)) n n
          ((adjOf (activePairs (tspEdges n) sol) 0).headI :: [0]) := by
    rw [tourLoop_succ, if_pos (by simp; omega)]
    have hfind : (adjOf (activePairs (tspEdges n) sol) (([0] : List ℕ).headI)).find?
        (fun j => !(([0] : List ℕ).contains j))
        = some (adjOf (activePairs (tspEdges n) sol) 0).headI := by
      apply find?_eq_head_of_all hne0
      intro x hx
      have hx0 : x ≠ 0 := by
        rcases (h0adj x).mp hx with h | h
        · intro h00
          rw [h00] at h
          have := hinj 0 1 hn0 (by omega) (by rw [hW0, ← h])
          omega
        · intro h00
          rw [h00] at h
          have := hinj 0 (n - 1) hn0 (by omega) (by rw [hW0, ← h])
          omega
      simpa using hx0
    simp only [hfind]
  rcases (h0adj _).mp hh0mem with hdir | hdir
  · have hwalkT := tourLoop_arc _ n (cyc p) hinj hper hadjW n 2 (by omega) hn (by omega)
    have hT2 : (adjOf (activePairs (tspEdges n) sol) 0).headI :: [0]
        = ((List.range 2).map (cyc p)).reverse := by
      rw [hdir, show (List.range 2) = [0, 1] from rfl]
      simp [hW0]
    apply getTour_assemble (cyc p) hn hinj hper hadjW hW0 hlt
      (fun x hx => cyc_surj hplen hpmem hx) hnk
    rw [hnk, hstep, hT2]
    exact hwalkT
  · have hrinj : ∀ i j, i < n → j < n → revCyc p n i = revCyc p n j → i = j :=
      fun i j hi hj => revCyc_inj hplen hpnodup hn hi hj
    have hradj : ∀ i < n, ∀ x, x ∈ adjOf (activePairs (tspEdges n) sol) (revCyc p n i) ↔
        (x = revCyc p n (i + 1) ∨ x = revCyc p n (i + (n - 1))) :=
      fun i hi x => revCyc_adj hn hplen hpnodup hpmem hsol hact hi x
    have hr0 : revCyc p n 0 = 0 := revCyc_zero hplen hn0 hphead
    have hrlt : ∀ i, revCyc p n i < n := revCyc_lt hplen hn0 hpmem
    have hwalkT := tourLoop_arc _ n (revCyc p n) hrinj (revCyc_per p n) hradj n 2
      (by omega) hn (by omega)
    have hT2 : (adjOf (activePairs (tspEdges n) sol) 0).headI :: [0]
        = ((List.range 2).map (revCyc p n)).reverse := by
      rw [hdir, show (List.range 2) = [0, 1] from rfl]
      have e1 : revCyc p n 1 = cyc p (n - 1) := by
        rw [revCyc_norm hplen hn0 (by omega), if_neg (by omega)]
      simp [hr0, e1]
    apply getTour_assemble (revCyc p n) hn hrinj (revCyc_per p n) hradj hr0 hrlt
      (fun x hx => revCyc_surj hplen hpmem hn hx) hnk
    rw [hnk, hstep, hT2]
    exact hwalkT

theorem cyc_add_mul_n {p : List ℕ} {n : ℕ} (hplen : p.length = n) (x : ℕ) :
    ∀ q, cyc p (x + n * q) = cyc p x
  | 0 => by simp
  | q + 1 => by
    rw [show x + n * (q + 1) = (x + n * q) + n by ring, cyc_add_n hplen,
      cyc_add_mul_n hplen x q]

theorem cyc_shift {p : List ℕ} {n : ℕ} (hplen : p.length = n) (a b : ℕ) :
    cyc p (a % n + b) = cyc p (a + b) := by
  have h2 : a + b = (a % n + b) + n * (a / n) := by
    calc a + b = (a % n + n * (a / n)) + b := by rw [Nat.mod_add_div]
      _ = (a % n + b) + n * (a / n) := by ring
  rw [h2, cyc_add_mul_n hplen]

theorem rotate_getD (p : List ℕ) (k m : ℕ) (hm : m < p.length) :
    (p.rotate k).getD m 0 = p.getD ((m + k) % p.length) 0 := by
  have hb1 : m < (p.rotate k).length := by
    rw [List.length_rotate]
    exact hm
  have hb2 : (m + k) % p.length < p.length := Nat.mod_lt _ (by omega)
  rw [List.getD_eq_getElem _ _ hb1, List.getD_eq_getElem _ _ hb2]
  exact List.getElem_rotate p k m hb1

theorem mod_add_mod_eq (L i i0 : ℕ) : (i % L + i0) % L = (i + i0) % L := by
  conv_rhs => rw [← Nat.mod_add_div i L]
  rw [show i % L + L * (i / L) + i0 = (i % L + i0) + L * (i / L) by ring,
    Nat.add_mul_mod_self_left]

theorem cyc_rotate {p : List ℕ} (hp : p ≠ []) (i0 i : ℕ) :
    cyc (p.rotate i0) i = cyc p (i + i0) := by
  have hL : 0 < p.length := List.length_pos.mpr hp
  unfold cyc
  rw [List.length_rotate, rotate_getD p i0 (i % p.length) (Nat.mod_lt _ hL),
    mod_add_mod_eq]

theorem isConsecPair_rotate {p : List ℕ} {n : ℕ} (hplen : p.length = n) (hn : 0 < n)
    {i0 : ℕ} (e : ℕ × ℕ) :
    isConsecPair (p.rotate i0) e ↔ isConsecPair p e := by
  have hp : p ≠ [] := by
    intro h
    rw [h] at hplen
    simp at hplen
    omega
  have hlr : (p.rotate i0).length = n := by rw [List.length_rotate, hplen]
  unfold isConsecPair
  rw [hlr, hplen]
  constructor
  · rintro ⟨i, hi, hc⟩
    refine ⟨(i + i0) % n, Nat.mod_lt _ hn, ?_⟩
    have e1 : cyc p ((i + i0) % n) = cyc (p.rotate i0) i := by
      rw [cyc_mod hplen, ← cyc_rotate hp i0 i]
    have e2 : cyc p ((i + i0) % n + 1) = cyc (p.rotate i0) (i + 1) := by
      rw [cyc_rotate hp i0 (i + 1), cyc_shift hplen (i + i0) 1,
        show i + i0 + 1 = i + 1 + i0 by ring]
    rw [e1, e2]
    exact hc
  · rintro ⟨i, hi, hc⟩
    refine ⟨(i + n - i0 % n) % n, Nat.mod_lt _ hn, ?_⟩
    have hi0n : i0 % n < n := Nat.mod_lt _ hn
    have hshift : ∀ b, cyc p ((i + n - i0 % n) % n + (b + i0)) = cyc p (i + b) := by
      intro b
      rw [show (i + n - i0 % n) % n + (b + i0) = (i + n - i0 % n) % n + (b + i0) from rfl,
        cyc_shift hplen (i + n - i0 % n) (b + i0)]
      have hsplit : i0 = i0 % n + n * (i0 / n) := (Nat.mod_add_div i0 n).symm
      calc cyc p (i + n - i0 % n + (b + i0))
          = cyc p ((i + b + n) + n * (i0 / n)) := by
            rw [show i + n - i0 % n + (b + i0)
              = (i + b + n) + (i0 - i0 % n) by omega]
            rw [show i0 - i0 % n = n * (i0 / n) by omega]
        _ = cyc p (i + b + n) := cyc_add_mul_n hplen _ _
        _ = cyc p (i + b) := cyc_add_n hplen _
    have e1 : cyc (p.rotate i0) ((i + n - i0 % n) % n) = cyc p i := by
      rw [cyc_rotate hp]
      have := hshift 0
      simpa using this
    have e2 : cyc (p.rotate i0) ((i + n - i0 % n) % n + 1) = cyc p (i + 1) := by
      rw [cyc_rotate hp, show (i + n - i0 % n) % n + 1 + i0
        = (i + n - i0 % n) % n + (1 + i0) by ring]
      exact hshift 1
    rw [e1, e2]
    exact hc

/-- C5: on an integer TSP model with at least two nodes, when the solution
entries above the `0.01` threshold are exactly the edges of a single
Hamiltonian cycle over all `n` nodes, `getTour` terminates and returns a
sequence starting at node 0, ending at node 0, and visiting every other node
exactly once in between. -/
theorem c5_getTour_hamiltonian (n : ℕ) (sol : List ℚ) (hn : 2 ≤ n)
    (hsol : sol.length = (tspEdges n).length)
    (hcyc : ∃ p : List ℕ, p.length = n ∧ p.Nodup ∧ (∀ x, x ∈ p ↔ x < n) ∧
      ∀ k < (tspEdges n).length,
        ((1 : ℚ) / 100 < sol.getD k 0 ↔ isConsecPair p ((tspEdges n).getD k (0, 0)))) :
    ∃ mid, tspABModel.getTour n sol = some (0 :: (mid ++ [0])) ∧ mid.Nodup ∧
      ∀ x, x ∈ mid ↔ (x < n ∧ x ≠ 0) := by
  obtain ⟨p, hplen, hpnodup, hpmem, hact⟩ := hcyc
  have hn0 : 0 < n := by omega
  obtain ⟨i0, hi0, hc0⟩ := cyc_surj hplen hpmem hn0
  have hp : p ≠ [] := by
    intro h
    rw [h] at hplen
    simp at hplen
    omega
  have hqlen : (p.rotate i0).length = n := by rw [List.length_rotate, hplen]
  have hqnodup : (p.rotate i0).Nodup := List.nodup_rotate.mpr hpnodup
  have hqmem : ∀ x, x ∈ p.rotate i0 ↔ x < n := by
    intro x
    rw [List.mem_rotate]
    exact hpmem x
  have hqhead : (p.rotate i0).headI = 0 := by
    rw [← getD_zero_headI (p.rotate i0) (by
      intro h
      rw [h] at hqlen
      simp at hqlen
      omega)]
    have hq0 : cyc (p.rotate i0) 0 = 0 := by
      rw [cyc_rotate hp, Nat.zero_add]
      exact hc0
    unfold cyc at hq0
    rw [Nat.zero_mod] at hq0
    exact hq0
  have hqact : ∀ k < (tspEdges n).length,
      ((1 : ℚ) / 100 < sol.getD k 0 ↔
        isConsecPair (p.rotate i0) ((tspEdges n).getD k (0, 0))) := by
    intro k hk
    rw [isConsecPair_rotate hplen hn0]
    exact hact k hk
  exact getTour_cycle_main hn hqlen hqnodup hqhead hqmem hsol hqact

/-- Witness for C5: the triangle solution on 3 nodes with all edges active. -/
theorem c5_getTour_hamiltonian_witness :
    2 ≤ 3 ∧
    ([(1 : ℚ), 1, 1].length = (tspEdges 3).length) ∧
    (∃ mid, tspABModel.getTour 3 [(1 : ℚ), 1, 1] = some (0 :: (mid ++ [0])) ∧ mid.Nodup ∧
      ∀ x, x ∈ mid ↔ (x < 3 ∧ x ≠ 0)) :=
  ⟨by omega, by decide,
    c5_getTour_hamiltonian 3 [1, 1, 1] (by omega) (by decide)
      ⟨[0, 1, 2], by decide, by decide, by
        intro x
        simp only [List.mem_cons, List.not_mem_nil, or_false]
        omega, by
        intro k hk
        have hk3 : k < 3 := by
          have h3 : (tspEdges 3).length = 3 := rfl
          omega
        have hcases : k = 0 ∨ k = 1 ∨ k = 2 := by omega
        rcases hcases with rfl | rfl | rfl
        · exact iff_of_true (by norm_num) ⟨0, by decide, Or.inl ⟨rfl, rfl⟩⟩
        · exact iff_of_true (by norm_num) ⟨2, by decide, Or.inr ⟨rfl, rfl⟩⟩
        · exact iff_of_true (by norm_num) ⟨1, by decide, Or.inl ⟨rfl, rfl⟩⟩⟩⟩

/-!
## C3: the DFJ subtour callback
-/

/-- Reachability in the selected-edge graph. -/
def reaches (sel : List (ℕ × ℕ)) (a b : ℕ) : Prop :=
  Relation.ReflTransGen (fun u v => v ∈ selAdj sel u) a b

theorem mem_selAdj {sel : List (ℕ × ℕ)} {c x : ℕ} :
    x ∈ selAdj sel c ↔ (c, x) ∈ sel := by
  unfold selAdj
  simp only [List.mem_filterMap]
  constructor
  · rintro ⟨q, hq, hqx⟩
    by_cases h : q.1 = c
    · rw [if_pos h] at hqx
      have : q = (c, x) := by
        obtain ⟨a, b⟩ := q
        simp only at h
        simp only [Option.some.injEq] at hqx
        simp [h, hqx]
      rw [← this]
      exact hq
    · rw [if_neg h] at hqx
      simp at hqx
  · intro h
    exact ⟨(c, x), h, by simp⟩

theorem mem_selectedOf {n : ℕ} {sol : List ℚ} {a b : ℕ} :
    (a, b) ∈ selectedOf n sol ↔
      (a, b) ∈ activePairs (tspEdges n) sol ∨ (b, a) ∈ activePairs (tspEdges n) sol := by
  unfold selectedOf
  simp only [List.mem_append, List.mem_map]
  constructor
  · rintro (h | ⟨q, hq, hqe⟩)
    · exact Or.inl h
    · right
      obtain ⟨u, v⟩ := q
      simp only [Prod.mk.injEq] at hqe
      obtain ⟨rfl, rfl⟩ := hqe
      exact hq
  · rintro (h | h)
    · exact Or.inl h
    · exact Or.inr ⟨(b, a), h, rfl⟩

theorem mem_activePairs_mem_edges {edges : List (ℕ × ℕ)} {sol : List ℚ} {e : ℕ × ℕ}
    (h : e ∈ activePairs edges sol) : e ∈ edges := by
  unfold activePairs at h
  obtain ⟨q, hq, hqe⟩ := List.mem_map.mp h
  rw [← hqe]
  exact (List.of_mem_zip (List.mem_filter.mp hq).1).1

theorem selAdj_sym {n : ℕ} {sol : List ℚ} {v x : ℕ} :
    x ∈ selAdj (selectedOf n sol) v ↔ v ∈ selAdj (selectedOf n sol) x := by
  rw [mem_selAdj, mem_selAdj, mem_selectedOf, mem_selectedOf]
  exact or_comm

theorem selAdj_lt {n : ℕ} {sol : List ℚ} {v x : ℕ}
    (h : x ∈ selAdj (selectedOf n sol) v) : x < n ∧ v < n := by
  rw [mem_selAdj, mem_selectedOf] at h
  rcases h with h | h
  · have := mem_tspEdges.mp (mem_activePairs_mem_edges h)
    omega
  · have := mem_tspEdges.mp (mem_activePairs_mem_edges h)
    omega

theorem selAdj_ne {n : ℕ} {sol : List ℚ} {v x : ℕ}
    (h : x ∈ selAdj (selectedOf n sol) v) : x ≠ v := by
  rw [mem_selAdj, mem_selectedOf] at h
  rcases h with h | h
  · have := mem_tspEdges.mp (mem_activePairs_mem_edges h)
    omega
  · have := mem_tspEdges.mp (mem_activePairs_mem_edges h)
    omega

theorem tspEdges_nodup (n : ℕ) : (tspEdges n).Nodup := by
  unfold tspEdges
  rw [List.nodup_flatMap]
  constructor
  · intro i _
    refine List.Nodup.map ?_ ((List.nodup_range n).filter _)
    intro a b hab
    simpa using hab
  · refine ((List.pairwise_lt_range n).imp ?_)
    intro a b hab
    intro x hxa hxb
    obtain ⟨j1, _, he1⟩ := List.mem_map.mp hxa
    obtain ⟨j2, _, he2⟩ := List.mem_map.mp hxb
    rw [← he1] at he2
    simp only [Prod.mk.injEq] at he2
    omega

theorem activePairs_nodup {n : ℕ} {sol : List ℚ}
    (hsol : sol.length = (tspEdges n).length) :
    (activePairs (tspEdges n) sol).Nodup := by
  have hsub : List.Sublist (activePairs (tspEdges n) sol) (tspEdges n) := by
    unfold activePairs
    have h1 := (List.filter_sublist ((tspEdges n).zip sol)
      (p := fun p => decide ((1 : ℚ) / 100 < p.2))).map Prod.fst
    rwa [List.map_fst_zip (tspEdges n) sol (by omega)] at h1
  exact hsub.nodup (tspEdges_nodup n)

theorem selAdj_nodup {n : ℕ} {sol : List ℚ}
    (hsol : sol.length = (tspEdges n).length) (v : ℕ) :
    (selAdj (selectedOf n sol) v).Nodup := by
  have hact := activePairs_nodup hsol
  unfold selectedOf selAdj
  rw [List.filterMap_append]
  have hinjf : ∀ (a a' : ℕ × ℕ) (b : ℕ),
      b ∈ (if a.1 = v then some a.2 else none) →
      b ∈ (if a'.1 = v then some a'.2 else none) → a = a' := by
    intro a a' b hb hb'
    by_cases h : a.1 = v
    · by_cases h' : a'.1 = v
      · rw [if_pos h] at hb
        rw [if_pos h'] at hb'
        simp only [Option.mem_def, Option.some.injEq] at hb hb'
        obtain ⟨a1, a2⟩ := a
        obtain ⟨b1, b2⟩ := a'
        simp only at h h' hb hb'
        simp [h, h', hb, hb']
      · rw [if_neg h'] at hb'
        simp at hb'
    · rw [if_neg h] at hb
      simp at hb
  refine List.Nodup.append ?_ ?_ ?_
  · exact List.Nodup.filterMap hinjf hact
  · exact List.Nodup.filterMap hinjf (hact.map fun a b hab => by
      obtain ⟨a1, a2⟩ := a
      obtain ⟨b1, b2⟩ := b
      simp only [Prod.mk.injEq] at hab
      simp [hab.1, hab.2])
  · intro x hx1 hx2
    obtain ⟨q, hq, hqx⟩ := List.mem_filterMap.mp hx1
    obtain ⟨q2, hq2, hq2x⟩ := List.mem_filterMap.mp hx2
    by_cases h : q.1 = v
    · by_cases h2 : q2.1 = v
      · rw [if_pos h] at hqx
        rw [if_pos h2] at hq2x
        simp only [Option.mem_def, Option.some.injEq] at hqx hq2x
        obtain ⟨q21, q22⟩ := List.mem_map.mp hq2
        have e1 := mem_tspEdges.mp (mem_activePairs_mem_edges hq)
        have e2 := mem_tspEdges.mp (mem_activePairs_mem_edges q22.1)
        obtain ⟨a1, a2⟩ := q
        obtain ⟨b1, b2⟩ := q21
        simp only at h hqx
        simp only [Prod.mk.injEq] at q22
        obtain ⟨hb1, hb2⟩ := q22.2
        simp only at h2 hq2x
        omega
      · rw [if_neg h2] at hq2x
        simp at hq2x
    · rw [if_neg h] at hqx
      simp at hqx


/-- First entry of the adjacency list. -/
def nbr0 (sel : List (ℕ × ℕ)) (v : ℕ) : ℕ := (selAdj sel v).getD 0 0

/-- Second entry of the adjacency list. -/
def nbr1 (sel : List (ℕ × ℕ)) (v : ℕ) : ℕ := (selAdj sel v).getD 1 0

/-- In a degree-2 graph, the neighbour of `v` other than `prev`. -/
def stepOther (sel : List (ℕ × ℕ)) (v prev : ℕ) : ℕ :=
  if nbr0 sel v = prev then nbr1 sel v else nbr0 sel v

/-- The canonical walk of a degree-2 graph from `s`: follow the first
neighbour, then at each step move to the neighbour not just visited. -/
def walkSeq (sel : List (ℕ × ℕ)) (s : ℕ) : ℕ → ℕ
  | 0 => s
  | 1 => nbr0 sel s
  | k + 2 => stepOther sel (walkSeq sel s (k + 1)) (walkSeq sel s k)

theorem list_two_eq (l : List ℕ) (h : l.length = 2) : l = [l.getD 0 0, l.getD 1 0] := by
  match l, h with
  | [a, b], _ => rfl

theorem two_mem_char {l : List ℕ} (hlen : l.length = 2) (hnd : l.Nodup) {a b : ℕ}
    (ha : a ∈ l) (hb : b ∈ l) (hab : a ≠ b) : ∀ x, x ∈ l ↔ (x = a ∨ x = b) := by
  match l, hlen with
  | [u, v], _ =>
    intro x
    simp only [List.mem_cons, List.not_mem_nil, or_false] at ha hb ⊢
    rcases ha with rfl | rfl <;> rcases hb with rfl | rfl <;> tauto

theorem selAdj_two_list {n : ℕ} {sol : List ℚ} (hsol : sol.length = (tspEdges n).length)
    (hdeg : ∀ v < n, (selAdj (selectedOf n sol) v).length = 2) {v : ℕ} (hv : v < n) :
    selAdj (selectedOf n sol) v
        = [nbr0 (selectedOf n sol) v, nbr1 (selectedOf n sol) v] ∧
      nbr0 (selectedOf n sol) v ≠ nbr1 (selectedOf n sol) v := by
  have hl := list_two_eq _ (hdeg v hv)
  refine ⟨hl, ?_⟩
  have hnd := selAdj_nodup hsol v
  rw [hl] at hnd
  unfold nbr0 nbr1
  simpa using hnd

theorem nbr0_mem {n : ℕ} {sol : List ℚ} (hsol : sol.length = (tspEdges n).length)
    (hdeg : ∀ v < n, (selAdj (selectedOf n sol) v).length = 2) {v : ℕ} (hv : v < n) :
    nbr0 (selectedOf n sol) v ∈ selAdj (selectedOf n sol) v := by
  rw [(selAdj_two_list hsol hdeg hv).1]
  simp

theorem nbr1_mem {n : ℕ} {sol : List ℚ} (hsol : sol.length = (tspEdges n).length)
    (hdeg : ∀ v < n, (selAdj (selectedOf n sol) v).length = 2) {v : ℕ} (hv : v < n) :
    nbr1 (selectedOf n sol) v ∈ selAdj (selectedOf n sol) v := by
  rw [(selAdj_two_list hsol hdeg hv).1]
  simp

theorem stepOther_mem {n : ℕ} {sol : List ℚ} (hsol : sol.length = (tspEdges n).length)
    (hdeg : ∀ v < n, (selAdj (selectedOf n sol) v).length = 2) {v : ℕ} (hv : v < n)
    (prev : ℕ) : stepOther (selectedOf n sol) v prev ∈ selAdj (selectedOf n sol) v := by
  unfold stepOther
  split
  · exact nbr1_mem hsol hdeg hv
  · exact nbr0_mem hsol hdeg hv

theorem stepOther_ne {n : ℕ} {sol : List ℚ} (hsol : sol.length = (tspEdges n).length)
    (hdeg : ∀ v < n, (selAdj (selectedOf n sol) v).length = 2) {v : ℕ} (hv : v < n)
    (prev : ℕ) : stepOther (selectedOf n sol) v prev ≠ prev := by
  have hne := (selAdj_two_list hsol hdeg hv).2
  unfold stepOther
  split
  · next h =>
    rw [← h]
    exact fun he => hne he.symm
  · next h => exact h

theorem walkSeq_facts {n : ℕ} {sol : List ℚ} (hsol : sol.length = (tspEdges n).length)
    (hdeg : ∀ v < n, (selAdj (selectedOf n sol) v).length = 2) {s : ℕ} (hs : s < n) :
    ∀ k, walkSeq (selectedOf n sol) s k < n ∧
      walkSeq (selectedOf n sol) s (k + 1)
        ∈ selAdj (selectedOf n sol) (walkSeq (selectedOf n sol) s k)
  | 0 => ⟨hs, nbr0_mem hsol hdeg hs⟩
  | k + 1 => by
    have ih := walkSeq_facts hsol hdeg hs k
    have hlt : walkSeq (selectedOf n sol) s (k + 1) < n := (selAdj_lt ih.2).1
    exact ⟨hlt, stepOther_mem hsol hdeg hlt _⟩

theorem walk_consec_ne {n : ℕ} {sol : List ℚ} (hsol : sol.length = (tspEdges n).length)
    (hdeg : ∀ v < n, (selAdj (selectedOf n sol) v).length = 2) {s : ℕ} (hs : s < n)
    (k : ℕ) : walkSeq (selectedOf n sol) s (k + 1) ≠ walkSeq (selectedOf n sol) s k :=
  selAdj_ne (walkSeq_facts hsol hdeg hs k).2

theorem walk_skip_ne {n : ℕ} {sol : List ℚ} (hsol : sol.length = (tspEdges n).length)
    (hdeg : ∀ v < n, (selAdj (selectedOf n sol) v).length = 2) {s : ℕ} (hs : s < n)
    (k : ℕ) : walkSeq (selectedOf n sol) s (k + 2) ≠ walkSeq (selectedOf n sol) s k :=
  stepOther_ne hsol hdeg (walkSeq_facts hsol hdeg hs (k + 1)).1 _

theorem walk_adj_interior {n : ℕ} {sol : List ℚ} (hsol : sol.length = (tspEdges n).length)
    (hdeg : ∀ v < n, (selAdj (selectedOf n sol) v).length = 2) {s : ℕ} (hs : s < n)
    (k : ℕ) : ∀ x, x ∈ selAdj (selectedOf n sol) (walkSeq (selectedOf n sol) s (k + 1)) ↔
      (x = walkSeq (selectedOf n sol) s k ∨ x = walkSeq (selectedOf n sol) s (k + 2)) := by
  have hprev : walkSeq (selectedOf n sol) s k
      ∈ selAdj (selectedOf n sol) (walkSeq (selectedOf n sol) s (k + 1)) :=
    selAdj_sym.mp (walkSeq_facts hsol hdeg hs k).2
  have hnext : walkSeq (selectedOf n sol) s (k + 2)
      ∈ selAdj (selectedOf n sol) (walkSeq (selectedOf n sol) s (k + 1)) :=
    (walkSeq_facts hsol hdeg hs (k + 1)).2
  exact two_mem_char (hdeg _ (walkSeq_facts hsol hdeg hs (k + 1)).1)
    (selAdj_nodup hsol _) hprev hnext (fun he => walk_skip_ne hsol hdeg hs k he.symm)

theorem orbit_exists {n : ℕ} {sol : List ℚ} (hsol : sol.length = (tspEdges n).length)
    (hdeg : ∀ v < n, (selAdj (selectedOf n sol) v).length = 2) {s : ℕ} (hs : s < n) :
    ∃ m, 3 ≤ m ∧ m ≤ n ∧ walkSeq (selectedOf n sol) s m = s ∧
      (∀ i j, i < m → j < m →
        walkSeq (selectedOf n sol) s i = walkSeq (selectedOf n sol) s j → i = j) := by
  have hfacts := walkSeq_facts hsol hdeg hs
  have hmaps : ∀ a ∈ Finset.range (n + 1),
      walkSeq (selectedOf n sol) s a ∈ Finset.range n :=
    fun a _ => Finset.mem_range.mpr (hfacts a).1
  have hcard : (Finset.range n).card < (Finset.range (n + 1)).card := by simp
  obtain ⟨i, hi, j, hj, hij, hfe⟩ :=
    Finset.exists_ne_map_eq_of_card_lt_of_maps_to hcard hmaps
  simp only [Finset.mem_range] at hi hj
  have hPex : ∃ k, ∃ j2 < k, walkSeq (selectedOf n sol) s j2
      = walkSeq (selectedOf n sol) s k ∧ k ≤ n := by
    rcases Nat.lt_or_ge i j with h | h
    · exact ⟨j, i, h, hfe, by omega⟩
    · have h2 : j < i := by omega
      exact ⟨i, j, h2, hfe.symm, by omega⟩
  obtain ⟨k0, j0, hj0k, hj0e, hk0n⟩ := hPex
  have hPex2 : ∃ k, ∃ j2 < k,
      walkSeq (selectedOf n sol) s j2 = walkSeq (selectedOf n sol) s k :=
    ⟨k0, j0, hj0k, hj0e⟩
  classical
  set m := Nat.find hPex2 with hmdef
  have hPm := Nat.find_spec hPex2
  have hmin : ∀ k < m, ¬ ∃ j2 < k,
      walkSeq (selectedOf n sol) s j2 = walkSeq (selectedOf n sol) s k :=
    fun k hk => Nat.find_min hPex2 hk
  have hmn : m ≤ n := le_trans (Nat.find_le ⟨j0, hj0k, hj0e⟩) hk0n
  have hinj : ∀ i2 j2, i2 < m → j2 < m →
      walkSeq (selectedOf n sol) s i2 = walkSeq (selectedOf n sol) s j2 → i2 = j2 := by
    intro i2 j2 hi2 hj2 he
    by_contra hne
    rcases Nat.lt_or_ge i2 j2 with h | h
    · exact hmin j2 hj2 ⟨i2, h, he⟩
    · have h2 : j2 < i2 := by omega
      exact hmin i2 hi2 ⟨j2, h2, he.symm⟩
  obtain ⟨j1, hj1m, hj1e⟩ := hPm
  have hm1 : 1 ≤ m := by omega
  have hj10 : j1 = 0 := by
    by_contra hjne
    have hj11 : 1 ≤ j1 := by omega
    have hm2 : 2 ≤ m := by omega
    have hmem1 : walkSeq (selectedOf n sol) s (m - 1)
        ∈ selAdj (selectedOf n sol) (walkSeq (selectedOf n sol) s j1) := by
      have h := (hfacts (m - 1)).2
      rw [show m - 1 + 1 = m by omega] at h
      rw [hj1e]
      exact selAdj_sym.mp h
    have hchar := walk_adj_interior hsol hdeg hs (j1 - 1)
      (walkSeq (selectedOf n sol) s (m - 1))
    rw [show j1 - 1 + 1 = j1 by omega, show j1 - 1 + 2 = j1 + 1 by omega] at hchar
    rcases hchar.mp hmem1 with h | h
    · exact hmin (m - 1) (by omega) ⟨j1 - 1, by omega, h.symm⟩
    · rcases Nat.lt_trichotomy (j1 + 1) (m - 1) with hlt | heq | hgt
      · exact hmin (m - 1) (by omega) ⟨j1 + 1, hlt, h.symm⟩
      · have hskip := walk_skip_ne hsol hdeg hs j1
        rw [show j1 + 2 = m by omega] at hskip
        exact hskip hj1e.symm
      · have hjm1 : j1 = m - 1 := by omega
        have hcons := walk_consec_ne hsol hdeg hs (m - 1)
        rw [show m - 1 + 1 = m by omega] at hcons
        rw [hjm1] at hj1e
        exact hcons hj1e.symm
  subst hj10
  have hm3 : 3 ≤ m := by
    by_contra hlt3
    have hm12 : m = 1 ∨ m = 2 := by omega
    rcases hm12 with h1 | h1 <;> rw [← hmdef] at hj1e <;> rw [h1] at hj1e
    · exact walk_consec_ne hsol hdeg hs 0 hj1e.symm
    · exact walk_skip_ne hsol hdeg hs 0 hj1e.symm
  exact ⟨m, hm3, hmn, hj1e.symm, hinj⟩

theorem orbit_adj {n : ℕ} {sol : List ℚ} (hsol : sol.length = (tspEdges n).length)
    (hdeg : ∀ v < n, (selAdj (selectedOf n sol) v).length = 2) {s : ℕ} (hs : s < n)
    {m : ℕ} (hm3 : 3 ≤ m) (hwm : walkSeq (selectedOf n sol) s m = s)
    (hinj : ∀ i j, i < m → j < m →
      walkSeq (selectedOf n sol) s i = walkSeq (selectedOf n sol) s j → i = j) :
    ∀ k < m, ∀ x, x ∈ selAdj (selectedOf n sol) (walkSeq (selectedOf n sol) s k) ↔
      (x = walkSeq (selectedOf n sol) s ((k + 1) % m) ∨
       x = walkSeq (selectedOf n sol) s ((k + (m - 1)) % m)) := by
  have hfacts := walkSeq_facts hsol hdeg hs
  intro k hk x
  by_cases hk0 : k = 0
  · subst hk0
    have h1 : walkSeq (selectedOf n sol) s 1
        ∈ selAdj (selectedOf n sol) (walkSeq (selectedOf n sol) s 0) := (hfacts 0).2
    have h2 : walkSeq (selectedOf n sol) s (m - 1)
        ∈ selAdj (selectedOf n sol) (walkSeq (selectedOf n sol) s 0) := by
      have h := (hfacts (m - 1)).2
      rw [show m - 1 + 1 = m by omega, hwm] at h
      exact selAdj_sym.mp h
    have hne : walkSeq (selectedOf n sol) s 1 ≠ walkSeq (selectedOf n sol) s (m - 1) :=
      fun he => by
        have := hinj 1 (m - 1) (by omega) (by omega) he
        omega
    have hchar := two_mem_char (hdeg _ (hfacts 0).1) (selAdj_nodup hsol _) h1 h2 hne x
    rw [hchar, show (0 + 1) % m = 1 by rw [Nat.zero_add, Nat.mod_eq_of_lt (by omega)],
      show (0 + (m - 1)) % m = m - 1 by rw [Nat.zero_add, Nat.mod_eq_of_lt (by omega)]]
  · have hchar := walk_adj_interior hsol hdeg hs (k - 1) x
    rw [show k - 1 + 1 = k by omega, show k - 1 + 2 = k + 1 by omega] at hchar
    rw [hchar]
    have hprev : (k + (m - 1)) % m = k - 1 := by
      rw [prev_mod_eq hk (by omega), if_neg hk0]
    rw [hprev]
    by_cases hkm : k + 1 = m
    · rw [show (k + 1) % m = 0 by rw [hkm, Nat.mod_self]]
      have hw : walkSeq (selectedOf n sol) s (k + 1) = walkSeq (selectedOf n sol) s 0 := by
        rw [hkm]
        exact hwm
      rw [← hw]
      exact or_comm
    · rw [Nat.mod_eq_of_lt (show k + 1 < m by omega)]
      exact or_comm

theorem orbit_reach {n : ℕ} {sol : List ℚ} (hsol : sol.length = (tspEdges n).length)
    (hdeg : ∀ v < n, (selAdj (selectedOf n sol) v).length = 2) {s : ℕ} (hs : s < n)
    {m : ℕ} (hm3 : 3 ≤ m) (hwm : walkSeq (selectedOf n sol) s m = s)
    (hinj : ∀ i j, i < m → j < m →
      walkSeq (selectedOf n sol) s i = walkSeq (selectedOf n sol) s j → i = j) :
    ∀ x, reaches (selectedOf n sol) s x ↔
      ∃ k < m, walkSeq (selectedOf n sol) s k = x := by
  have hadj := orbit_adj hsol hdeg hs hm3 hwm hinj
  have hfacts := walkSeq_facts hsol hdeg hs
  intro x
  constructor
  · intro hr
    induction hr with
    | refl => exact ⟨0, by omega, rfl⟩
    | tail hab hbc ih =>
      obtain ⟨k, hk, rfl⟩ := ih
      rcases (hadj k hk _).mp hbc with h | h
      · exact ⟨(k + 1) % m, Nat.mod_lt _ (by omega), h.symm⟩
      · exact ⟨(k + (m - 1)) % m, Nat.mod_lt _ (by omega), h.symm⟩
  · rintro ⟨k, hk, rfl⟩
    clear hk
    induction k with
    | zero => exact Relation.ReflTransGen.refl
    | succ k ih => exact ih.tail (hfacts k).2

/-- The prefix of the canonical walk recorded in `thiscycle` after `k` steps. -/
def tcList (sel : List (ℕ × ℕ)) (s k : ℕ) : List ℕ := (List.range k).map (walkSeq sel s)

/-- The unvisited list after the first `k` walk nodes have been removed. -/
def unvFil (sel : List (ℕ × ℕ)) (s : ℕ) (unv : List ℕ) (k : ℕ) : List ℕ :=
  unv.filter (fun x => !((tcList sel s k).contains x))

theorem innerWalk_succ_nil (sel : List (ℕ × ℕ)) (f : ℕ) (unv tc : List ℕ) :
    innerWalk sel (f + 1) [] unv tc = (tc, unv) := rfl

theorem innerWalk_succ_cons (sel : List (ℕ × ℕ)) (f current : ℕ) (rest unv tc : List ℕ) :
    innerWalk sel (f + 1) (current :: rest) unv tc
      = innerWalk sel f ((selAdj sel current).filter
          (fun j => (unv.erase current).contains j))
        (unv.erase current) (tc ++ [current]) := rfl

theorem mem_tcList {sel : List (ℕ × ℕ)} {s k x : ℕ} :
    x ∈ tcList sel s k ↔ ∃ j < k, walkSeq sel s j = x := by
  unfold tcList
  simp

theorem mem_unvFil {sel : List (ℕ × ℕ)} {s : ℕ} {unv : List ℕ} {k x : ℕ} :
    x ∈ unvFil sel s unv k ↔ x ∈ unv ∧ x ∉ tcList sel s k := by
  unfold unvFil
  simp

theorem tcList_succ (sel : List (ℕ × ℕ)) (s k : ℕ) :
    tcList sel s (k + 1) = tcList sel s k ++ [walkSeq sel s k] := by
  unfold tcList
  rw [List.range_succ]
  simp

theorem unvFil_erase {n : ℕ} {sol : List ℚ} {s : ℕ} {unv : List ℕ}
    (hu_nodup : unv.Nodup) (k : ℕ) :
    (unvFil (selectedOf n sol) s unv k).erase (walkSeq (selectedOf n sol) s k)
      = unvFil (selectedOf n sol) s unv (k + 1) := by
  have hnd : (unvFil (selectedOf n sol) s unv k).Nodup := hu_nodup.filter _
  rw [hnd.erase_eq_filter]
  unfold unvFil
  rw [List.filter_filter]
  refine List.filter_congr ?_
  intro x _
  rw [tcList_succ]
  by_cases h : x = walkSeq (selectedOf n sol) s k <;>
    by_cases h2 : x ∈ tcList (selectedOf n sol) s k <;> simp [h, h2]

theorem nodup_subset_length_le {l1 l2 : List ℕ} (h1 : l1.Nodup)
    (hsub : ∀ x ∈ l1, x ∈ l2) : l1.length ≤ l2.length := by
  have e1 : l1.toFinset.card = l1.length := by
    rw [List.card_toFinset, h1.dedup]
  calc l1.length = l1.toFinset.card := e1.symm
    _ ≤ l2.toFinset.card := Finset.card_le_card fun x hx =>
        List.mem_toFinset.mpr (hsub x (List.mem_toFinset.mp hx))
    _ ≤ l2.length := l2.toFinset_card_le

theorem tcList_nodup {n : ℕ} {sol : List ℚ} {s : ℕ} {m k : ℕ} (hk : k ≤ m)
    (hinj : ∀ i j, i < m → j < m →
      walkSeq (selectedOf n sol) s i = walkSeq (selectedOf n sol) s j → i = j) :
    (tcList (selectedOf n sol) s k).Nodup := by
  unfold tcList
  refine List.Nodup.map_on ?_ (List.nodup_range _)
  intro a ha b hb he
  simp only [List.mem_range] at ha hb
  exact hinj a b (by omega) (by omega) he

theorem innerWalk_follow {n : ℕ} {sol : List ℚ} (hsol : sol.length = (tspEdges n).length)
    (hdeg : ∀ v < n, (selAdj (selectedOf n sol) v).length = 2)
    {unv : List ℕ} (hu_nodup : unv.Nodup)
    {s : ℕ} (hs : s < n) (hsu : ∀ j, walkSeq (selectedOf n sol) s j ∈ unv)
    {m : ℕ} (hm3 : 3 ≤ m) (hwm : walkSeq (selectedOf n sol) s m = s)
    (hinj : ∀ i j, i < m → j < m →
      walkSeq (selectedOf n sol) s i = walkSeq (selectedOf n sol) s j → i = j) :
    ∀ fuel k, 1 ≤ k → k ≤ m → m - k < fuel →
      innerWalk (selectedOf n sol) fuel
        ((selAdj (selectedOf n sol) (walkSeq (selectedOf n sol) s (k - 1))).filter
          (fun j => (unvFil (selectedOf n sol) s unv k).contains j))
        (unvFil (selectedOf n sol) s unv k)
        (tcList (selectedOf n sol) s k)
      = (tcList (selectedOf n sol) s m, unvFil (selectedOf n sol) s unv m) := by
  have hadj := orbit_adj hsol hdeg hs hm3 hwm hinj
  intro fuel
  induction fuel with
  | zero =>
    intro k h1 hkm hf
    omega
  | succ f ih =>
    intro k h1 hkm hf
    by_cases hkeq : k = m
    · subst hkeq
      have hnil : (selAdj (selectedOf n sol)
            (walkSeq (selectedOf n sol) s (k - 1))).filter
          (fun j => (unvFil (selectedOf n sol) s unv k).contains j) = [] := by
        rw [List.filter_eq_nil_iff]
        intro y hy
        have hy2 := (hadj (k - 1) (by omega) y).mp hy
        have hi1 : (k - 1 + 1) % k = 0 := by
          rw [show k - 1 + 1 = k by omega]
          exact Nat.mod_self k
        have hi2 : (k - 1 + (k - 1)) % k = k - 2 := by
          rw [show k - 1 + (k - 1) = (k - 2) + k by omega, Nat.add_mod_right]
          exact Nat.mod_eq_of_lt (by omega)
        rw [hi1, hi2] at hy2
        suffices hns : y ∉ unvFil (selectedOf n sol) s unv k by simpa using hns
        intro hymem
        apply (mem_unvFil.mp hymem).2
        rcases hy2 with h | h
        · exact mem_tcList.mpr ⟨0, by omega, h.symm⟩
        · exact mem_tcList.mpr ⟨k - 2, by omega, h.symm⟩
      rw [hnil, innerWalk_succ_nil]
    · have hklt : k < m := by omega
      have hwk_unv : walkSeq (selectedOf n sol) s k
          ∈ unvFil (selectedOf n sol) s unv k := by
        rw [mem_unvFil]
        refine ⟨hsu k, ?_⟩
        intro hmem
        obtain ⟨j, hj, hje⟩ := mem_tcList.mp hmem
        have := hinj j k (by omega) (by omega) hje
        omega
      have hwk_adj : walkSeq (selectedOf n sol) s k
          ∈ selAdj (selectedOf n sol) (walkSeq (selectedOf n sol) s (k - 1)) := by
        have h := (walkSeq_facts hsol hdeg hs (k - 1)).2
        rwa [show k - 1 + 1 = k by omega] at h
      have hwk_nbrs : walkSeq (selectedOf n sol) s k
          ∈ (selAdj (selectedOf n sol) (walkSeq (selectedOf n sol) s (k - 1))).filter
            (fun j => (unvFil (selectedOf n sol) s unv k).contains j) := by
        rw [List.mem_filter]
        exact ⟨hwk_adj, by simpa using hwk_unv⟩
      have hhead : ∃ rest, (selAdj (selectedOf n sol)
            (walkSeq (selectedOf n sol) s (k - 1))).filter
          (fun j => (unvFil (selectedOf n sol) s unv k).contains j)
          = walkSeq (selectedOf n sol) s k :: rest := by
        by_cases hk1 : k = 1
        · subst hk1
          obtain ⟨hlist, hne01⟩ := selAdj_two_list hsol hdeg hs
          have hpass : (unvFil (selectedOf n sol) s unv 1).contains
              (nbr0 (selectedOf n sol) s) = true := by
            simpa using hwk_unv
          refine ⟨([nbr1 (selectedOf n sol) s]).filter
              (fun j => (unvFil (selectedOf n sol) s unv 1).contains j), ?_⟩
          show (selAdj (selectedOf n sol) s).filter
              (fun j => (unvFil (selectedOf n sol) s unv 1).contains j) = _
          rw [hlist, List.filter_cons_of_pos hpass]
          rfl
        · have hall : ∀ y ∈ (selAdj (selectedOf n sol)
              (walkSeq (selectedOf n sol) s (k - 1))).filter
                (fun j => (unvFil (selectedOf n sol) s unv k).contains j),
              y = walkSeq (selectedOf n sol) s k := by
            intro y hy
            rw [List.mem_filter] at hy
            obtain ⟨hyadj, hyunv⟩ := hy
            have h := (hadj (k - 1) (by omega) y).mp hyadj
            have hi1 : (k - 1 + 1) % m = k := by
              rw [show k - 1 + 1 = k by omega]
              exact Nat.mod_eq_of_lt hklt
            have hi2 : (k - 1 + (m - 1)) % m = k - 2 := by
              rw [show k - 1 + (m - 1) = (k - 2) + m by omega, Nat.add_mod_right]
              exact Nat.mod_eq_of_lt (by omega)
            rw [hi1, hi2] at h
            rcases h with h | h
            · exact h
            · exfalso
              have hyu : y ∈ unvFil (selectedOf n sol) s unv k := by simpa using hyunv
              exact (mem_unvFil.mp hyu).2 (mem_tcList.mpr ⟨k - 2, by omega, h.symm⟩)
          rcases hcase : (selAdj (selectedOf n sol)
              (walkSeq (selectedOf n sol) s (k - 1))).filter
                (fun j => (unvFil (selectedOf n sol) s unv k).contains j) with _ | ⟨a, t⟩
          · rw [hcase] at hwk_nbrs
            simp at hwk_nbrs
          · have ha : a = walkSeq (selectedOf n sol) s k := hall a (by rw [hcase]; simp)
            exact ⟨t, by rw [ha]⟩
      obtain ⟨rest, hrest⟩ := hhead
      rw [hrest, innerWalk_succ_cons, unvFil_erase hu_nodup k, ← tcList_succ]
      exact ih (k + 1) (by omega) (by omega) (by omega)

theorem innerWalk_component {n : ℕ} {sol : List ℚ} (hsol : sol.length = (tspEdges n).length)
    (hdeg : ∀ v < n, (selAdj (selectedOf n sol) v).length = 2)
    {unv : List ℕ} (hu_nodup : unv.Nodup) (hne : unv ≠ [])
    (hbound : ∀ x ∈ unv, x < n)
    (hclosed : ∀ x ∈ unv, ∀ y ∈ selAdj (selectedOf n sol) x, y ∈ unv) :
    ∃ m, 3 ≤ m ∧ m ≤ unv.length ∧
      innerWalk (selectedOf n sol) (unv.length + 1) unv unv []
        = (tcList (selectedOf n sol) unv.headI m,
           unvFil (selectedOf n sol) unv.headI unv m) ∧
      (tcList (selectedOf n sol) unv.headI m).length = m ∧
      (tcList (selectedOf n sol) unv.headI m).Nodup ∧
      (tcList (selectedOf n sol) unv.headI m).headI = unv.headI ∧
      (∀ x ∈ tcList (selectedOf n sol) unv.headI m, x ∈ unv) ∧
      (∀ x, x ∈ tcList (selectedOf n sol) unv.headI m ↔
        reaches (selectedOf n sol) unv.headI x) := by
  have hsmem : unv.headI ∈ unv := headI_mem_of_ne_nil hne
  have hs : unv.headI < n := hbound _ hsmem
  obtain ⟨m, hm3, hmn, hwm, hinj⟩ := orbit_exists hsol hdeg hs
  have hsu : ∀ j, walkSeq (selectedOf n sol) unv.headI j ∈ unv := by
    intro j
    induction j with
    | zero => exact hsmem
    | succ j ih =>
      exact hclosed _ ih _ (walkSeq_facts hsol hdeg hs j).2
  have htl : (tcList (selectedOf n sol) unv.headI m).length = m := by
    simp [tcList]
  have htnd : (tcList (selectedOf n sol) unv.headI m).Nodup :=
    tcList_nodup (le_refl m) hinj
  have hsub : ∀ x ∈ tcList (selectedOf n sol) unv.headI m, x ∈ unv := by
    intro x hx
    obtain ⟨j, hj, hje⟩ := mem_tcList.mp hx
    rw [← hje]
    exact hsu j
  have hmlen : m ≤ unv.length := by
    have h := nodup_subset_length_le htnd hsub
    omega
  have h0 : unvFil (selectedOf n sol) unv.headI unv 0 = unv := by
    simp [unvFil, tcList]
  have he : unv.erase unv.headI = unvFil (selectedOf n sol) unv.headI unv 1 := by
    have h : (unvFil (selectedOf n sol) unv.headI unv 0).erase
          (walkSeq (selectedOf n sol) unv.headI 0)
        = unvFil (selectedOf n sol) unv.headI unv (0 + 1) := unvFil_erase hu_nodup 0
    rw [h0] at h
    exact h
  have hmem : ∀ x, x ∈ tcList (selectedOf n sol) unv.headI m ↔
      reaches (selectedOf n sol) unv.headI x := by
    intro x
    exact mem_tcList.trans (orbit_reach hsol hdeg hs hm3 hwm hinj x).symm
  have hhead : (tcList (selectedOf n sol) unv.headI m).headI = unv.headI := by
    obtain ⟨m2, rfl⟩ : ∃ m2, m = m2 + 1 := ⟨m - 1, by omega⟩
    unfold tcList
    rw [List.range_succ_eq_map]
    rfl
  refine ⟨m, hm3, hmlen, ?_, htl, htnd, hhead, hsub, hmem⟩
  obtain ⟨a, t, rfl⟩ : ∃ a t, unv = a :: t := by
    cases unv with
    | nil => exact absurd rfl hne
    | cons a t => exact ⟨a, t, rfl⟩
  simp only [List.headI_cons] at he ⊢
  rw [innerWalk_succ_cons, he]
  exact innerWalk_follow hsol hdeg hu_nodup hs hsu hm3 hwm hinj
    ((a :: t).length) 1 (le_refl 1) (by omega) (by omega)

theorem subtourLoop_spec {n : ℕ} {sol : List ℚ} (hsol : sol.length = (tspEdges n).length)
    (hdeg : ∀ v < n, (selAdj (selectedOf n sol) v).length = 2) :
    ∀ fuel unv cyc, unv.Nodup → (∀ x ∈ unv, x < n) →
      (∀ x ∈ unv, ∀ y ∈ selAdj (selectedOf n sol) x, y ∈ unv) →
      unv.length < fuel →
      ((cyc.Nodup ∧ cyc ≠ [] ∧ (∀ x ∈ cyc, x < n) ∧
         (∀ x, x ∈ cyc ↔ reaches (selectedOf n sol) cyc.headI x)) ∨
        (n + 1 ≤ cyc.length ∧ unv ≠ [])) →
      (∀ u < n, u ∉ unv → ∀ L : List ℕ,
        (∀ x, reaches (selectedOf n sol) u x → x ∈ L) → cyc.length ≤ L.length) →
      (subtourLoop (selectedOf n sol) fuel unv cyc).Nodup ∧
      subtourLoop (selectedOf n sol) fuel unv cyc ≠ [] ∧
      (∀ x ∈ subtourLoop (selectedOf n sol) fuel unv cyc, x < n) ∧
      (∀ x, x ∈ subtourLoop (selectedOf n sol) fuel unv cyc ↔
        reaches (selectedOf n sol)
          (subtourLoop (selectedOf n sol) fuel unv cyc).headI x) ∧
      (∀ u < n, ∀ L : List ℕ,
        (∀ x, reaches (selectedOf n sol) u x → x ∈ L) →
        (subtourLoop (selectedOf n sol) fuel unv cyc).length ≤ L.length) := by
  have hsym : ∀ p q : ℕ, reaches (selectedOf n sol) p q →
      reaches (selectedOf n sol) q p := by
    intro p q h
    refine Relation.ReflTransGen.symmetric ?_ h
    intro x y hxy
    exact selAdj_sym.mp hxy
  intro fuel
  induction fuel with
  | zero =>
    intro unv cyc _ _ _ hf _ _
    omega
  | succ f ih =>
    intro unv cyc hnd hbound hclosed hf hcyc hmin
    cases unv with
    | nil =>
      have heq : subtourLoop (selectedOf n sol) (f + 1) [] cyc = cyc := rfl
      rw [heq]
      rcases hcyc with ⟨h1, h2, h3, h4⟩ | ⟨_, hne⟩
      · exact ⟨h1, h2, h3, h4, fun u hu L hL => hmin u hu (by simp) L hL⟩
      · exact absurd rfl hne
    | cons a t =>
      obtain ⟨m, hm3, hmlen, heqr, htl, htnd, hthead, htsub, htmem⟩ :=
        innerWalk_component hsol hdeg hnd (by simp) hbound hclosed
      simp only [List.headI_cons] at heqr htl htnd hthead htsub htmem
      have hstep : subtourLoop (selectedOf n sol) (f + 1) (a :: t) cyc
          = subtourLoop (selectedOf n sol) f
              (unvFil (selectedOf n sol) a (a :: t) m)
              (if cyc.length > (tcList (selectedOf n sol) a m).length
               then tcList (selectedOf n sol) a m else cyc) := by
        show subtourLoop (selectedOf n sol) f
            (innerWalk (selectedOf n sol) ((a :: t).length + 1) (a :: t) (a :: t) []).2
            (if cyc.length >
                (innerWalk (selectedOf n sol)
                  ((a :: t).length + 1) (a :: t) (a :: t) []).1.length
             then (innerWalk (selectedOf n sol)
                  ((a :: t).length + 1) (a :: t) (a :: t) []).1
             else cyc) = _
        rw [heqr]
      rw [hstep]
      have hamem : a ∈ tcList (selectedOf n sol) a m := by
        rw [htmem]
        exact Relation.ReflTransGen.refl
      have htne : tcList (selectedOf n sol) a m ≠ [] := by
        intro h
        rw [h] at htl
        simp at htl
        omega
      have htbnd : ∀ x ∈ tcList (selectedOf n sol) a m, x < n :=
        fun x hx => hbound x (htsub x hx)
      have hnd2 : (unvFil (selectedOf n sol) a (a :: t) m).Nodup := hnd.filter _
      have hbound2 : ∀ x ∈ unvFil (selectedOf n sol) a (a :: t) m, x < n := by
        intro x hx
        exact hbound x (mem_unvFil.mp hx).1
      have hclosed2 : ∀ x ∈ unvFil (selectedOf n sol) a (a :: t) m,
          ∀ y ∈ selAdj (selectedOf n sol) x,
            y ∈ unvFil (selectedOf n sol) a (a :: t) m := by
        intro x hx y hy
        obtain ⟨hxu, hxnt⟩ := mem_unvFil.mp hx
        refine mem_unvFil.mpr ⟨hclosed x hxu y hy, ?_⟩
        intro hyt
        apply hxnt
        rw [htmem] at hyt ⊢
        exact Relation.ReflTransGen.tail hyt (selAdj_sym.mp hy)
      have hfl : (unvFil (selectedOf n sol) a (a :: t) m).length < (a :: t).length := by
        unfold unvFil
        refine List.length_filter_lt_length_iff_exists.mpr ⟨a, by simp, ?_⟩
        simpa using hamem
      have hnlen : (a :: t).length ≤ n := by
        have h := nodup_subset_length_le hnd
          (fun x hx => List.mem_range.mpr (hbound x hx))
        simpa using h
      by_cases hcmp : cyc.length > (tcList (selectedOf n sol) a m).length
      · rw [if_pos hcmp]
        refine ih (unvFil (selectedOf n sol) a (a :: t) m)
          (tcList (selectedOf n sol) a m) hnd2 hbound2 hclosed2 (by omega)
          (Or.inl ⟨htnd, htne, htbnd, ?_⟩) ?_
        · intro x
          rw [hthead]
          exact htmem x
        · intro u hu hunf L hL
          by_cases hut : u ∈ a :: t
          · have hutc : u ∈ tcList (selectedOf n sol) a m := by
              by_contra hnc
              exact hunf (mem_unvFil.mpr ⟨hut, hnc⟩)
            have hru := (htmem u).mp hutc
            have hsubL : ∀ x ∈ tcList (selectedOf n sol) a m, x ∈ L := by
              intro x hx
              exact hL x (Relation.ReflTransGen.trans (hsym _ _ hru) ((htmem x).mp hx))
            exact nodup_subset_length_le htnd hsubL
          · have h := hmin u hu hut L hL
            omega
      · rw [if_neg hcmp]
        have hgood : cyc.Nodup ∧ cyc ≠ [] ∧ (∀ x ∈ cyc, x < n) ∧
            (∀ x, x ∈ cyc ↔ reaches (selectedOf n sol) cyc.headI x) := by
          rcases hcyc with h | ⟨hlen, _⟩
          · exact h
          · exfalso
            omega
        refine ih (unvFil (selectedOf n sol) a (a :: t) m) cyc hnd2 hbound2 hclosed2
          (by omega) (Or.inl hgood) ?_
        intro u hu hunf L hL
        by_cases hut : u ∈ a :: t
        · have hutc : u ∈ tcList (selectedOf n sol) a m := by
            by_contra hnc
            exact hunf (mem_unvFil.mpr ⟨hut, hnc⟩)
          have hru := (htmem u).mp hutc
          have hsubL : ∀ x ∈ tcList (selectedOf n sol) a m, x ∈ L := by
            intro x hx
            exact hL x (Relation.ReflTransGen.trans (hsym _ _ hru) ((htmem x).mp hx))
          have h := nodup_subset_length_le htnd hsubL
          omega
        · exact hmin u hu hut L hL

/-- C3: on a candidate integer solution on `n` nodes in which every node has
degree 2 among the edges selected above the 0.01 threshold, the `subtour`
helper of `tspDFJModel._subtourelim` returns a duplicate-free minimum-cardinality
connected component of the selected-edge graph, the callback adds the lazy cut
`sum of x[i, j] over all node pairs of the component ≤ |component| - 1` exactly
when the component has strictly fewer than `n` nodes, and no cut is added when
the component touches every node (a single Hamiltonian cycle). -/
theorem c3_dfj_subtour_cut {n : ℕ} {sol : List ℚ} (hn : 0 < n)
    (hsol : sol.length = (tspEdges n).length)
    (hdeg : ∀ v < n, (selAdj (selectedOf n sol) v).length = 2) :
    (subtour (selectedOf n sol) n).Nodup ∧
    subtour (selectedOf n sol) n ≠ [] ∧
    (∀ x, x ∈ subtour (selectedOf n sol) n ↔
      (x < n ∧ reaches (selectedOf n sol) (subtour (selectedOf n sol) n).headI x)) ∧
    (∀ u < n, ∀ L : List ℕ, (∀ x, reaches (selectedOf n sol) u x → x ∈ L) →
      (subtour (selectedOf n sol) n).length ≤ L.length) ∧
    (∀ cut, tspDFJModel.subtourelim n sol = some cut ↔
      ((subtour (selectedOf n sol) n).length < n ∧
        cut = (combs2 (subtour (selectedOf n sol) n),
               (subtour (selectedOf n sol) n).length - 1))) ∧
    ((∀ x < n, reaches (selectedOf n sol) (subtour (selectedOf n sol) n).headI x) →
      tspDFJModel.subtourelim n sol = none) := by
  have hspec := subtourLoop_spec hsol hdeg (n + 1) (List.range n) (List.range (n + 1))
    (List.nodup_range n)
    (fun x hx => List.mem_range.mp hx)
    (fun x hx y hy => List.mem_range.mpr (selAdj_lt hy).1)
    (by simp)
    (Or.inr ⟨by simp, by simp; omega⟩)
    (fun u hu hnu L hL => absurd (List.mem_range.mpr hu) hnu)
  have hsubeq : subtour (selectedOf n sol) n
      = subtourLoop (selectedOf n sol) (n + 1) (List.range n) (List.range (n + 1)) := rfl
  rw [← hsubeq] at hspec
  obtain ⟨h1, h2, h3, h4, h5⟩ := hspec
  have hdef : tspDFJModel.subtourelim n sol
      = if (subtour (selectedOf n sol) n).length < n
        then some (combs2 (subtour (selectedOf n sol) n),
                   (subtour (selectedOf n sol) n).length - 1)
        else none := rfl
  refine ⟨h1, h2, ?_, h5, ?_, ?_⟩
  · intro x
    constructor
    · intro hx
      exact ⟨h3 x hx, (h4 x).mp hx⟩
    · intro hx
      exact (h4 x).mpr hx.2
  · intro cut
    rw [hdef]
    by_cases hlt : (subtour (selectedOf n sol) n).length < n
    · rw [if_pos hlt]
      constructor
      · intro h
        exact ⟨hlt, (Option.some.inj h).symm⟩
      · rintro ⟨h, rfl⟩
        rfl
    · rw [if_neg hlt]
      constructor
      · intro h
        exact Option.noConfusion h
      · rintro ⟨h, h2x⟩
        exact absurd h hlt
  · intro hall
    have hsub2 : ∀ x ∈ List.range n, x ∈ subtour (selectedOf n sol) n :=
      fun x hx => (h4 x).mpr (hall x (List.mem_range.mp hx))
    have hge := nodup_subset_length_le (List.nodup_range n) hsub2
    rw [hdef, if_neg (by simp at hge; omega)]

theorem activePairs_three_ones :
    activePairs (tspEdges 3) [(1 : ℚ), 1, 1] = [(0, 1), (0, 2), (1, 2)] := by
  have he : tspEdges 3 = [(0, 1), (0, 2), (1, 2)] := by decide
  rw [activePairs, he]
  norm_num

theorem selectedOf_three_ones : selectedOf 3 [(1 : ℚ), 1, 1]
    = [(0, 1), (0, 2), (1, 2), (1, 0), (2, 0), (2, 1)] := by
  rw [selectedOf, activePairs_three_ones]
  rfl

theorem c3_dfj_subtour_cut_witness :
    (subtour (selectedOf 3 [(1 : ℚ), 1, 1]) 3).Nodup ∧
    tspDFJModel.subtourelim 3 [(1 : ℚ), 1, 1] = none := by
  have h := @c3_dfj_subtour_cut 3 [(1 : ℚ), 1, 1] (by omega) (by decide)
    (by
      intro v hv
      rw [selectedOf_three_ones]
      interval_cases v <;> rfl)
  refine ⟨h.1, h.2.2.2.2.2 ?_⟩
  intro x hx
  have hh : (subtour (selectedOf 3 [(1 : ℚ), 1, 1]) 3).headI = 0 := by
    rw [selectedOf_three_ones]
    decide
  rw [hh]
  interval_cases x
  · exact Relation.ReflTransGen.refl
  · exact Relation.ReflTransGen.single
      (show (1 : ℕ) ∈ selAdj (selectedOf 3 [(1 : ℚ), 1, 1]) 0 by
        rw [selectedOf_three_ones]
        decide)
  · exact Relation.ReflTransGen.single
      (show (2 : ℕ) ∈ selAdj (selectedOf 3 [(1 : ℚ), 1, 1]) 0 by
        rw [selectedOf_three_ones]
        decide)
